import Mathlib

/-!
Verification development for the daily-todo storage layer and CLI workflows.

Documents are modelled as lists of Unicode characters (`Line := List Char`),
matching Python's `str` as a sequence of code points.  Python's
`str.splitlines` is modelled for the `"\n"` separator (the only separator the
program itself ever writes), `str.strip`/`str.rstrip` via `Char.isWhitespace`,
and `"\n".join` by `joinLines`.  The checklist-line regular expression
`^\s*-\s*\[([ x~])\]\s*(.*)$` (IGNORECASE, applied to the stripped line) is
modelled by `parseTaskLineChars`.  All definitions are transcribed from
`src/storage.py`, `src/cli.py` and `src/llm.py`.
-/

namespace DailyTodo

abbrev Line := List Char

/-- Model of `str.strip()`: drop whitespace from both ends. -/
def stripChars (l : Line) : Line :=
  ((l.dropWhile Char.isWhitespace).reverse.dropWhile Char.isWhitespace).reverse

/-- Model of `str.rstrip()`: drop whitespace from the right end. -/
def rstripChars (l : Line) : Line :=
  (l.reverse.dropWhile Char.isWhitespace).reverse

/-- Model of `stripped.startswith("## ")` from `storage.py`. -/
def isH2 (l : Line) : Bool :=
  ("## ".data).isPrefixOf l

/-- Constant `TASK_SECTION_HEADER = "## 任务"` (storage.py line 17). -/
def TASK_SECTION_HEADER : Line := "## 任务".data

/-- Constant `ABANDONED_SECTION_HEADER = "## 已废弃"` (storage.py line 18). -/
def ABANDONED_SECTION_HEADER : Line := "## 已废弃".data

/-- Constant `SUMMARY_SECTION_HEADER = "## 日总结"` (storage.py line 19). -/
def SUMMARY_SECTION_HEADER : Line := "## 日总结".data

/-- Split at every newline character; the pieces, in order, with no piece
dropped (`"a\n"` gives `["a", ""]`).  Auxiliary for `splitlines`. -/
def splitAll : Line → List Line
  | [] => [[]]
  | c :: rest =>
    if c = '\n' then [] :: splitAll rest
    else
      match splitAll rest with
      | [] => [[c]]
      | l :: ls => (c :: l) :: ls

/-- Python `str.splitlines()` restricted to the `'\n'` separator: a trailing
newline does not produce a final empty line, and `""` has no lines. -/
def splitlines (cs : Line) : List Line :=
  let p := splitAll cs
  if p.getLast? = some [] then p.dropLast else p

/-- Python `"\n".join(lines)`. -/
def joinLines : List Line → Line
  | [] => []
  | [l] => l
  | l :: l2 :: rest => l ++ '\n' :: joinLines (l2 :: rest)

/-- The `Task` dataclass (storage.py lines 40-62); `status` is the single
character `' '` (pending), `'x'` (done) or `'~'` (abandoned). -/
structure Task where
  index : Nat
  title : Line
  status : Char
  raw_line : Line
deriving Repr, DecidableEq

/-- Predicate `Task.is_pending`. -/
def Task.is_pending (t : Task) : Bool := t.status = ' '

/-- Predicate `Task.is_done`. -/
def Task.is_done (t : Task) : Bool := t.status = 'x'

/-- Predicate `Task.is_abandoned`. -/
def Task.is_abandoned (t : Task) : Bool := t.status = '~'

/-- Rendering `Task.to_markdown`: the canonical line `- [<status>] <title>`. -/
def Task.to_markdown (t : Task) : Line :=
  '-' :: ' ' :: '[' :: t.status :: ']' :: ' ' :: t.title

/-- The regular expression `^\s*-\s*\[([ x~])\]\s*(.*)$` (IGNORECASE) matched
against `line.strip()`, as in `_parse_task_line` (storage.py lines 69-81):
returns the canonicalized status character and the stripped title. -/
def parseTaskLineChars (line : Line) : Option (Char × Line) :=
  match stripChars line with
  | '-' :: rest =>
    match rest.dropWhile Char.isWhitespace with
    | '[' :: c :: ']' :: rest2 =>
      if c = ' ' ∨ c = 'x' ∨ c = 'X' ∨ c = '~' then
        some (if c = 'X' then 'x' else c, stripChars rest2)
      else none
    | _ => none
  | _ => none

/-- State of the scanning loop in `parse_tasks_from_markdown`
(storage.py lines 89-92): the two section flags, the running index and the
accumulated tasks. -/
structure PState where
  in_tasks : Bool
  in_abandoned : Bool
  index : Nat
  tasks : List Task
deriving Repr, DecidableEq

/-- One iteration of the loop body of `parse_tasks_from_markdown`
(storage.py lines 94-115). -/
def parseStep (st : PState) (line : Line) : PState :=
  let stripped := stripChars line
  if stripped = TASK_SECTION_HEADER then
    { st with in_tasks := true, in_abandoned := false }
  else if stripped = ABANDONED_SECTION_HEADER then
    { st with in_abandoned := true, in_tasks := false }
  else if isH2 stripped then
    { st with in_tasks := false, in_abandoned := false }
  else if st.in_tasks || st.in_abandoned then
    match parseTaskLineChars line with
    | some (c, title) =>
      let t : Task :=
        { index := st.index + 1
          title := title
          status := if st.in_abandoned then '~' else c
          raw_line := rstripChars line }
      { st with index := st.index + 1, tasks := st.tasks ++ [t] }
    | none => st
  else st

/-- Function `parse_tasks_from_markdown` (storage.py lines 84-117). -/
def parse_tasks_from_markdown (content : Line) : List Task :=
  ((splitlines content).foldl parseStep ⟨false, false, 0, []⟩).tasks

/-- Function `serialize_tasks_to_section` (storage.py lines 120-134). -/
def serialize_tasks_to_section (tasks : List Task) : Line :=
  let main := tasks.filter (fun t => !t.is_abandoned)
  let abandoned := tasks.filter (fun t => t.is_abandoned)
  let lines := [TASK_SECTION_HEADER, []] ++ main.map Task.to_markdown
  let lines :=
    if abandoned = [] then lines
    else lines ++ [[], ABANDONED_SECTION_HEADER, []] ++ abandoned.map Task.to_markdown
  joinLines lines

/-- Loop of `replace_tasks_section` (storage.py lines 157-178); returns the
`out` list together with the `replaced` flag.  The element put in place of
the task section is the whole (possibly multi-line) replacement text. -/
def rtsGo (sec : Line) : List Line → List Line × Bool
  | [] => ([], false)
  | line :: rest =>
    let stripped := stripChars line
    if stripped = TASK_SECTION_HEADER then
      let r := rtsGo sec (rest.dropWhile (fun l => !isH2 (stripChars l)))
      (sec :: r.1, true)
    else if stripped = ABANDONED_SECTION_HEADER then
      rtsGo sec (rest.dropWhile (fun l => !isH2 (stripChars l)))
    else
      let r := rtsGo sec rest
      (line :: r.1, r.2)
termination_by lines => lines.length
decreasing_by
  all_goals simp only [List.length_cons]
  all_goals first
    | exact Nat.lt_succ_of_le (List.dropWhile_suffix _).length_le
    | exact Nat.lt_succ_self _

/-- Function `replace_tasks_section` (storage.py lines 152-184). -/
def replace_tasks_section (content new_tasks_section : Line) : Line :=
  let r := rtsGo new_tasks_section (splitlines content)
  if r.2 then joinLines r.1
  else
    let out := if stripChars (r.1.getLastD []) ≠ [] then r.1 ++ [[]] else r.1
    joinLines (out ++ [new_tasks_section])

/-- Fuel-indexed structural clone of `rtsGo`, used to evaluate
`replace_tasks_section` on concrete documents inside the kernel (the
well-founded recursion of `rtsGo` does not reduce there).  With fuel at
least the number of lines it computes exactly `rtsGo`. -/
def rtsGoF (sec : Line) : Nat → List Line → List Line × Bool
  | _, [] => ([], false)
  | 0, _ :: _ => ([], false)
  | fuel + 1, line :: rest =>
    let s := stripChars line
    if s = TASK_SECTION_HEADER then
      let r := rtsGoF sec fuel (rest.dropWhile (fun l => !isH2 (stripChars l)))
      (sec :: r.1, true)
    else if s = ABANDONED_SECTION_HEADER then
      rtsGoF sec fuel (rest.dropWhile (fun l => !isH2 (stripChars l)))
    else
      let r := rtsGoF sec fuel rest
      (line :: r.1, r.2)

/-- Kernel-evaluable form of `replace_tasks_section` (see `rtsGoF`). -/
def replace_tasks_sectionF (content new_tasks_section : Line) : Line :=
  let r := rtsGoF new_tasks_section (splitlines content).length (splitlines content)
  if r.2 then joinLines r.1
  else
    let out := if stripChars (r.1.getLastD []) ≠ [] then r.1 ++ [[]] else r.1
    joinLines (out ++ [new_tasks_section])

/-- Loop of `replace_summary_section` (storage.py lines 214-227). -/
def rssGo (summary : Line) : List Line → List Line × Bool
  | [] => ([], false)
  | line :: rest =>
    if stripChars line = SUMMARY_SECTION_HEADER then
      let r := rssGo summary (rest.dropWhile (fun l => !isH2 (stripChars l)))
      (SUMMARY_SECTION_HEADER :: [] :: stripChars summary :: r.1, true)
    else
      let r := rssGo summary rest
      (line :: r.1, r.2)
termination_by lines => lines.length
decreasing_by
  all_goals simp only [List.length_cons]
  all_goals first
    | exact Nat.lt_succ_of_le (List.dropWhile_suffix _).length_le
    | exact Nat.lt_succ_self _

/-- Function `replace_summary_section` (storage.py lines 206-234). -/
def replace_summary_section (content summary_text : Line) : Line :=
  let r := rssGo summary_text (splitlines content)
  if r.2 then joinLines r.1
  else
    let out := if stripChars (r.1.getLastD []) ≠ [] then r.1 ++ [[]] else r.1
    joinLines (out ++ [SUMMARY_SECTION_HEADER, [], stripChars summary_text])

/-- The structured edit set returned by `parse_update_intent` (llm.py
lines 62-94): four optional fields, here as plain lists. -/
structure UpdateIntent where
  completed_indices : List Nat
  abandoned_indices : List Nat
  new_tasks : List Line
  text_edits : List (Nat × Line)
deriving Repr, DecidableEq

/-- The value `parse_update_intent` returns when `json.loads` raises
`JSONDecodeError` (llm.py lines 88-94): all four fields empty. -/
def parse_update_intent_failsoft : UpdateIntent :=
  { completed_indices := []
    abandoned_indices := []
    new_tasks := []
    text_edits := [] }

/-- Python dict comprehension over `text_edits` (cli.py lines 126-130):
later pairs with the same index override earlier ones, so the effective
entry is the last matching pair. -/
def textEditFor (edits : List (Nat × Line)) (i : Nat) : Option Line :=
  ((edits.filter (fun e => e.1 = i)).getLast?).map Prod.snd

/-- The pure part of `cmd_update` (cli.py lines 104-145), with the decoded
intent passed in: parse, apply completed / abandoned / text edits, append
new tasks as pending after the maximum index, serialize and merge. -/
def cmd_update_core (d_iso content : Line) (edits : UpdateIntent) : Line :=
  let tasks := parse_tasks_from_markdown content
  let content :=
    if stripChars content = [] then
      ('#' :: ' ' :: d_iso) ++ '\n' :: '\n' :: TASK_SECTION_HEADER ++ '\n' :: '\n' :: []
    else content
  let tasks := tasks.map (fun t =>
    if t.index ∈ edits.completed_indices then { t with status := 'x' } else t)
  let tasks := tasks.map (fun t =>
    if t.index ∈ edits.abandoned_indices then { t with status := '~' } else t)
  let tasks := tasks.map (fun t =>
    match textEditFor edits.text_edits t.index with
    | some title => { t with title := title }
    | none => t)
  let max_idx := (tasks.map Task.index).foldr max 0
  let tasks := tasks ++ (edits.new_tasks.mapIdx (fun i title =>
    { index := max_idx + 1 + i, title := title, status := ' ', raw_line := [] }))
  let new_section := serialize_tasks_to_section tasks
  replace_tasks_section content new_section

/-- The pure part of `cmd_generate` (cli.py lines 44-74), with the external
generator passed in as a function and a boolean recording whether it was
invoked: if yesterday has no pending tasks, write a skeleton (blank today)
or merge an empty task section (non-blank today) without calling the
generator; otherwise call it, ensure the header is present, and merge. -/
def cmd_generate_core (yesterday_md existing today_iso : Line)
    (gen : List Line → Line → Line) : Line × Bool :=
  let yesterday_tasks := parse_tasks_from_markdown yesterday_md
  let yesterday_pending := (yesterday_tasks.filter Task.is_pending).map Task.title
  if yesterday_pending = [] then
    let empty_section := TASK_SECTION_HEADER ++ '\n' :: '\n' :: []
    let full :=
      if stripChars existing = [] then
        ('#' :: ' ' :: today_iso) ++ '\n' :: '\n' :: empty_section
      else replace_tasks_section existing empty_section
    (full, false)
  else
    let tasks_md := gen yesterday_pending today_iso
    let tasks_md :=
      if TASK_SECTION_HEADER <:+: tasks_md then tasks_md
      else TASK_SECTION_HEADER ++ '\n' :: '\n' :: tasks_md
    let full :=
      if stripChars existing = [] then
        ('#' :: ' ' :: today_iso) ++ '\n' :: '\n' :: tasks_md ++ ['\n']
      else replace_tasks_section existing tasks_md
    (full, true)

/-- Projection of a task to the three fields the specification's comparisons
use: index, title, status. -/
def Task.key (t : Task) : Nat × Line × Char := (t.index, t.title, t.status)

/-- Keys of a task list. -/
def keys (ts : List Task) : List (Nat × Line × Char) := ts.map Task.key

/-- Recursive form of the scanning loop of `parse_tasks_from_markdown`,
equivalent to folding `parseStep`; convenient for induction. -/
def parseFrom : Bool → Bool → Nat → List Line → List Task
  | _, _, _, [] => []
  | inT, inA, idx, line :: rest =>
    let s := stripChars line
    if s = TASK_SECTION_HEADER then parseFrom true false idx rest
    else if s = ABANDONED_SECTION_HEADER then parseFrom false true idx rest
    else if isH2 s then parseFrom false false idx rest
    else if inT || inA then
      match parseTaskLineChars line with
      | some (c, title) =>
        { index := idx + 1, title := title,
          status := if inA then '~' else c,
          raw_line := rstripChars line } :: parseFrom inT inA (idx + 1) rest
      | none => parseFrom inT inA idx rest
    else parseFrom inT inA idx rest

/-- The tasks the parser reconstructs from the canonical lines of `ts`,
starting at index `k`: same titles and statuses, fresh consecutive indices,
raw lines as re-read from the canonical rendering. -/
def canonTasks (k : Nat) : List Task → List Task
  | [] => []
  | t :: ts =>
    { index := k + 1, title := t.title, status := t.status,
      raw_line := rstripChars t.to_markdown } :: canonTasks (k + 1) ts

/-- The line list that `serialize_tasks_to_section` joins with newlines. -/
def serializeLines (tasks : List Task) : List Line :=
  let main := tasks.filter (fun t => !t.is_abandoned)
  let abandoned := tasks.filter (fun t => t.is_abandoned)
  let lines := [TASK_SECTION_HEADER, []] ++ main.map Task.to_markdown
  if abandoned = [] then lines
  else lines ++ [[], ABANDONED_SECTION_HEADER, []] ++ abandoned.map Task.to_markdown

/-- Whether a line is (up to surrounding whitespace) the Task-section
header line. -/
def isTaskHeaderLine (l : Line) : Bool := stripChars l = TASK_SECTION_HEADER

/-- Number of lines of a text that are the Task-section header line
(counted over the exact newline split, so a trailing newline adds no
line). -/
def headerLineCount (cs : Line) : Nat := (splitAll cs).countP isTaskHeaderLine

/-! ### Relating the fold to the recursive parser -/

theorem foldl_parseStep_eq (lines : List Line) :
    ∀ (inT inA : Bool) (idx : Nat) (acc : List Task),
    (lines.foldl parseStep ⟨inT, inA, idx, acc⟩).tasks
      = acc ++ parseFrom inT inA idx lines := by
  induction lines with
  | nil => intro inT inA idx acc; simp [parseFrom]
  | cons line rest ih =>
    intro inT inA idx acc
    simp only [List.foldl_cons, parseFrom, parseStep]
    split
    · exact ih true false idx acc
    · split
      · exact ih false true idx acc
      · split
        · exact ih false false idx acc
        · split
          · split
            · next c title heq =>
              rw [ih]
              simp
            · exact ih inT inA idx acc
          · exact ih inT inA idx acc

theorem parse_eq_parseFrom (content : Line) :
    parse_tasks_from_markdown content = parseFrom false false 0 (splitlines content) := by
  unfold parse_tasks_from_markdown
  rw [foldl_parseStep_eq]
  simp

/-! ### Basic facts about stripping -/

theorem ws_mem_of_mem_dropWhile {l : Line} {a : Char}
    (h : a ∈ l.dropWhile Char.isWhitespace) : a ∈ l :=
  (List.dropWhile_suffix _).subset h

theorem mem_of_mem_rdropWhile {l : Line} {a : Char}
    (h : a ∈ List.rdropWhile Char.isWhitespace l) : a ∈ l :=
  (List.rdropWhile_prefix _ _).subset h

theorem stripChars_eq_rdrop (l : Line) :
    stripChars l = List.rdropWhile Char.isWhitespace (l.dropWhile Char.isWhitespace) := rfl

theorem mem_of_mem_stripChars {l : Line} {a : Char} (h : a ∈ stripChars l) : a ∈ l := by
  rw [stripChars_eq_rdrop] at h
  exact ws_mem_of_mem_dropWhile (mem_of_mem_rdropWhile h)

theorem dropWhile_stripChars (l : Line) :
    (stripChars l).dropWhile Char.isWhitespace = stripChars l := by
  rw [stripChars_eq_rdrop]
  rcases h : List.rdropWhile Char.isWhitespace (l.dropWhile Char.isWhitespace) with _ | ⟨c, t⟩
  · rfl
  · rw [List.dropWhile_cons]
    have hpre := List.rdropWhile_prefix Char.isWhitespace (l.dropWhile Char.isWhitespace)
    rw [h] at hpre
    obtain ⟨tail, htail⟩ := hpre
    have hhead : (l.dropWhile Char.isWhitespace).dropWhile Char.isWhitespace
        = l.dropWhile Char.isWhitespace := List.dropWhile_idempotent _ _
    rw [← htail] at hhead
    by_cases hc : Char.isWhitespace c
    · exfalso
      rw [List.cons_append, List.dropWhile_cons, if_pos hc] at hhead
      have := congrArg List.length hhead
      simp only [List.length_cons, List.length_append] at this
      have hle := ((List.dropWhile_suffix (l := t ++ tail)
        (p := Char.isWhitespace)).length_le)
      simp only [List.length_append] at hle
      omega
    · rw [if_neg hc]

theorem stripChars_idem (l : Line) : stripChars (stripChars l) = stripChars l := by
  rw [stripChars_eq_rdrop (stripChars l), dropWhile_stripChars, stripChars_eq_rdrop,
    List.rdropWhile_idempotent]

/-! ### Basic facts about splitAll, splitlines and joinLines -/

theorem splitAll_ne_nil (cs : Line) : splitAll cs ≠ [] := by
  induction cs with
  | nil => simp [splitAll]
  | cons c rest ih =>
    rw [splitAll]
    split
    · simp
    · rcases h : splitAll rest with _ | ⟨l, ls⟩ <;> simp

theorem splitAll_append_newline (a b : Line) :
    splitAll (a ++ '\n' :: b) = splitAll a ++ splitAll b := by
  induction a with
  | nil => simp [splitAll]
  | cons c rest ih =>
    by_cases hc : c = '\n'
    · subst hc
      rw [List.cons_append, splitAll, if_pos rfl, ih, splitAll, if_pos rfl, List.cons_append]
    · rw [List.cons_append, splitAll, if_neg hc, ih, splitAll, if_neg hc]
      rcases h : splitAll rest with _ | ⟨l, ls⟩
      · exact absurd h (splitAll_ne_nil rest)
      · simp

theorem splitAll_no_newline {l : Line} (h : '\n' ∉ l) : splitAll l = [l] := by
  induction l with
  | nil => rfl
  | cons c rest ih =>
    rw [splitAll, if_neg (by intro hc; exact h (hc ▸ List.mem_cons_self c rest)),
      ih (fun hm => h (List.mem_cons_of_mem c hm))]

theorem no_newline_of_mem_splitAll (cs : Line) :
    ∀ l ∈ splitAll cs, '\n' ∉ l := by
  induction cs with
  | nil => intro l hl; simp [splitAll] at hl; simp [hl]
  | cons c rest ih =>
    intro l hl
    rw [splitAll] at hl
    by_cases hc : c = '\n'
    · rw [if_pos hc, List.mem_cons] at hl
      rcases hl with hl | hl
      · simp [hl]
      · exact ih l hl
    · rw [if_neg hc] at hl
      rcases h : splitAll rest with _ | ⟨m, ms⟩
      · exact absurd h (splitAll_ne_nil rest)
      · rw [h, List.mem_cons] at hl
        rcases hl with hl | hl
        · subst hl
          intro hmem
          rw [List.mem_cons] at hmem
          rcases hmem with hmem | hmem
          · exact hc hmem.symm
          · exact ih m (h ▸ List.mem_cons_self m ms) hmem
        · exact ih l (h ▸ List.mem_cons_of_mem m hl)

theorem no_newline_of_mem_splitlines (cs : Line) :
    ∀ l ∈ splitlines cs, '\n' ∉ l := by
  intro l hl
  unfold splitlines at hl
  have : l ∈ splitAll cs := by
    by_cases h : (splitAll cs).getLast? = some []
    · rw [if_pos h] at hl
      exact List.dropLast_subset _ hl
    · rw [if_neg h] at hl
      exact hl
  exact no_newline_of_mem_splitAll cs l this

theorem splitlines_eq (cs : Line) :
    splitlines cs = if (splitAll cs).getLast? = some [] then (splitAll cs).dropLast
      else splitAll cs := rfl

theorem joinLines_cons (l : Line) {ls : List Line} (h : ls ≠ []) :
    joinLines (l :: ls) = l ++ '\n' :: joinLines ls := by
  rcases ls with _ | ⟨l2, rest⟩
  · exact absurd rfl h
  · rfl

/-- Fact: `splitAll` is a left inverse of `joinLines` on nonempty line lists whose
pieces are expanded by `splitAll` again. -/
theorem splitAll_joinLines (E : List Line) (h : E ≠ []) :
    splitAll (joinLines E) = E.flatMap splitAll := by
  induction E with
  | nil => exact absurd rfl h
  | cons l ls ih =>
    rcases ls with _ | ⟨l2, rest⟩
    · simp [joinLines]
    · rw [joinLines_cons l (by simp), splitAll_append_newline, ih (by simp)]
      simp

/-- If every piece is newline-free, `splitAll` recovers exactly the pieces. -/
theorem splitAll_joinLines_of_no_newline (E : List Line) (h : E ≠ [])
    (hnl : ∀ l ∈ E, '\n' ∉ l) :
    splitAll (joinLines E) = E := by
  rw [splitAll_joinLines E h]
  induction E with
  | nil => rfl
  | cons l ls ih =>
    rw [List.flatMap_cons, splitAll_no_newline (hnl l (List.mem_cons_self l ls))]
    rcases ls with _ | ⟨l2, rest⟩
    · rfl
    · rw [List.singleton_append, ih (by simp)
        (fun m hm => hnl m (List.mem_cons_of_mem l hm))]

/-! ### Facts about the checklist-line matcher -/

theorem parseTaskLineChars_spec {line : Line} {c : Char} {title : Line}
    (h : parseTaskLineChars line = some (c, title)) :
    (c = ' ' ∨ c = 'x' ∨ c = '~') ∧ stripChars title = title
      ∧ (∀ a ∈ title, a ∈ line) := by
  unfold parseTaskLineChars at h
  split at h
  case _ rest heq =>
    split at h
    case _ c0 rest2 heq2 =>
      split at h
      case isTrue hin =>
        simp only [Option.some.injEq, Prod.mk.injEq] at h
        obtain ⟨hc, ht⟩ := h
        refine ⟨?_, ?_, ?_⟩
        · rcases hin with h0 | h0 | h0 | h0 <;> subst h0 <;> simp at hc <;> simp [← hc]
        · rw [← ht, stripChars_idem]
        · intro a ha
          have h1 : a ∈ rest2 := mem_of_mem_stripChars (ht ▸ ha)
          have h2 : a ∈ rest.dropWhile Char.isWhitespace := by
            rw [heq2]
            exact List.mem_cons_of_mem _ (List.mem_cons_of_mem _ (List.mem_cons_of_mem _ h1))
          have h3 : a ∈ stripChars line := by
            rw [heq]
            exact List.mem_cons_of_mem _ (ws_mem_of_mem_dropWhile h2)
          exact mem_of_mem_stripChars h3
      case isFalse => exact absurd h (by simp)
    case _ => exact absurd h (by simp)
  case _ => exact absurd h (by simp)

/-! ### Parser invariants -/

theorem parseFrom_invariant (lines : List Line) :
    ∀ (inT inA : Bool) (idx : Nat), ∀ t ∈ parseFrom inT inA idx lines,
    (t.status = ' ' ∨ t.status = 'x' ∨ t.status = '~') ∧ stripChars t.title = t.title
      ∧ (∃ l ∈ lines, ∀ a ∈ t.title, a ∈ l) := by
  induction lines with
  | nil => intro inT inA idx t ht; simp [parseFrom] at ht
  | cons line rest ih =>
    intro inT inA idx t ht
    simp only [parseFrom] at ht
    split at ht
    · obtain ⟨h1, h2, l, hl, h3⟩ := ih true false idx t ht
      exact ⟨h1, h2, l, List.mem_cons_of_mem _ hl, h3⟩
    · split at ht
      · obtain ⟨h1, h2, l, hl, h3⟩ := ih false true idx t ht
        exact ⟨h1, h2, l, List.mem_cons_of_mem _ hl, h3⟩
      · split at ht
        · obtain ⟨h1, h2, l, hl, h3⟩ := ih false false idx t ht
          exact ⟨h1, h2, l, List.mem_cons_of_mem _ hl, h3⟩
        · split at ht
          · split at ht
            case _ c0 title0 heq =>
              rw [List.mem_cons] at ht
              rcases ht with ht | ht
              · subst ht
                obtain ⟨hs, hstr, hmem⟩ := parseTaskLineChars_spec heq
                refine ⟨?_, hstr, line, List.mem_cons_self line rest, hmem⟩
                by_cases hA : inA
                · simp [hA]
                · simp only [hA, if_false]
                  exact hs
              · obtain ⟨h1, h2, l, hl, h3⟩ := ih inT inA (idx + 1) t ht
                exact ⟨h1, h2, l, List.mem_cons_of_mem _ hl, h3⟩
            case _ =>
              obtain ⟨h1, h2, l, hl, h3⟩ := ih inT inA idx t ht
              exact ⟨h1, h2, l, List.mem_cons_of_mem _ hl, h3⟩
          · obtain ⟨h1, h2, l, hl, h3⟩ := ih inT inA idx t ht
            exact ⟨h1, h2, l, List.mem_cons_of_mem _ hl, h3⟩

theorem parseFrom_indices (lines : List Line) :
    ∀ (inT inA : Bool) (idx : Nat),
    (parseFrom inT inA idx lines).map Task.index
      = List.range' (idx + 1) (parseFrom inT inA idx lines).length := by
  induction lines with
  | nil => intro inT inA idx; simp [parseFrom]
  | cons line rest ih =>
    intro inT inA idx
    simp only [parseFrom]
    split
    · exact ih true false idx
    · split
      · exact ih false true idx
      · split
        · exact ih false false idx
        · split
          · split
            · simp only [List.map_cons, List.length_cons, List.range'_succ]
              rw [ih]
            · exact ih inT inA idx
          · exact ih inT inA idx

/-- Lines that are neither the task header nor the abandoned header never
contribute tasks while both flags are down: the scan skips them. -/
theorem parseFrom_append_no_sections (A : List Line) (R : List Line) (idx : Nat)
    (h : ∀ l ∈ A, stripChars l ≠ TASK_SECTION_HEADER
      ∧ stripChars l ≠ ABANDONED_SECTION_HEADER) :
    parseFrom false false idx (A ++ R) = parseFrom false false idx R := by
  induction A with
  | nil => simp
  | cons line A ih =>
    have hline := h line (List.mem_cons_self line A)
    have hA : ∀ l ∈ A, stripChars l ≠ TASK_SECTION_HEADER
        ∧ stripChars l ≠ ABANDONED_SECTION_HEADER :=
      fun l hl => h l (List.mem_cons_of_mem line hl)
    rw [List.cons_append]
    simp only [parseFrom, hline.1, hline.2, if_false, Bool.or_self]
    split
    · exact ih hA
    · exact ih hA

/-- With both flags down and no Task/Abandoned header in sight, the scan
produces nothing. -/
theorem parseFrom_no_sections (A : List Line) (idx : Nat)
    (h : ∀ l ∈ A, stripChars l ≠ TASK_SECTION_HEADER
      ∧ stripChars l ≠ ABANDONED_SECTION_HEADER) :
    parseFrom false false idx A = [] := by
  have := parseFrom_append_no_sections A [] idx h
  simpa [parseFrom] using this

/-- C2.  Index density: for every input document, the task list returned
by `parse_tasks_from_markdown` has indices forming exactly the contiguous
run `1..N` (no gaps, no duplicates), where `N` is the number of matched
checklist lines; abandoned-section tasks share this single index sequence
in document scan order, being part of the same parsed list. -/
theorem claim_C2_index_density (content : Line) :
    (parse_tasks_from_markdown content).map Task.index
      = List.range' 1 (parse_tasks_from_markdown content).length := by
  rw [parse_eq_parseFrom]
  exact parseFrom_indices _ false false 0

/-- C3.  Abandoned coercion: any task that one scanning step adds while
the parser is inside the Abandoned section has status `'~'`, regardless of
the bracket character on the line (in particular a pending-looking
`- [ ] foo` line). -/
theorem claim_C3_abandoned_coercion (st : PState) (line : Line) (t : Task)
    (hA : st.in_abandoned = true) (ht : t ∈ (parseStep st line).tasks) :
    t ∈ st.tasks ∨ t.status = '~' := by
  simp only [parseStep] at ht
  repeat' split at ht
  all_goals first
    | exact Or.inl ht
    | · rw [List.mem_append] at ht
        rcases ht with ht | ht
        · exact Or.inl ht
        · rw [List.mem_singleton] at ht
          subst ht
          right
          simp [hA]

/-- Witness for C3: the line `- [ ] foo` scanned inside the Abandoned
section yields exactly the abandoned task. -/
theorem claim_C3_witness :
    (PState.mk false true 0 []).in_abandoned = true
      ∧ (Task.mk 1 "foo".data '~' "- [ ] foo".data)
          ∈ (parseStep (PState.mk false true 0 []) "- [ ] foo".data).tasks
      ∧ ((Task.mk 1 "foo".data '~' "- [ ] foo".data)
            ∈ (PState.mk false true 0 []).tasks
          ∨ (Task.mk 1 "foo".data '~' "- [ ] foo".data).status = '~') := by
  refine ⟨rfl, ?_, ?_⟩
  · decide
  · exact claim_C3_abandoned_coercion (PState.mk false true 0 []) "- [ ] foo".data
      (Task.mk 1 "foo".data '~' "- [ ] foo".data) rfl (by decide)

/-- C5, counterexample.  The claim says a heading of *any* level closes
the scan region, so the checklist line below `### note` should be excluded.
The code only reacts to lines starting with `"## "`
(storage.py line 104), so the task *is* parsed. -/
theorem claim_C5_counterexample :
    keys (parse_tasks_from_markdown ("## 任务\n### note\n- [ ] a".data))
      = [(1, "a".data, ' ')] := by decide

/-- C5, amended.  Every line whose stripped form starts with `"## "` and
is neither the Task-section nor the Abandoned-section header clears both
flags, so no checklist line between such a heading and the next
Task/Abandoned header is included.  (Headings of other levels, such as
`#` or `###`, do not close the sections.) -/
theorem claim_C5_h2_closure (st : PState) (line : Line) (rest : List Line)
    (hH2 : isH2 (stripChars line) = true)
    (hT : stripChars line ≠ TASK_SECTION_HEADER)
    (hA : stripChars line ≠ ABANDONED_SECTION_HEADER)
    (hrest : ∀ l ∈ rest, stripChars l ≠ TASK_SECTION_HEADER
      ∧ stripChars l ≠ ABANDONED_SECTION_HEADER) :
    ((line :: rest).foldl parseStep st).tasks = st.tasks := by
  have hstep : parseStep st line = ⟨false, false, st.index, st.tasks⟩ := by
    unfold parseStep
    rw [if_neg hT, if_neg hA, if_pos hH2]
  rw [List.foldl_cons, hstep, foldl_parseStep_eq,
    parseFrom_no_sections rest st.index hrest]
  simp

/-- Witness for C5 (amended): a `## Notes` heading inside the task section
closes it, so a checklist line after it is not parsed. -/
theorem claim_C5_witness :
    isH2 (stripChars ("## Notes".data)) = true
      ∧ stripChars ("## Notes".data) ≠ TASK_SECTION_HEADER
      ∧ stripChars ("## Notes".data) ≠ ABANDONED_SECTION_HEADER
      ∧ (∀ l ∈ ["- [ ] a".data], stripChars l ≠ TASK_SECTION_HEADER
          ∧ stripChars l ≠ ABANDONED_SECTION_HEADER)
      ∧ ((["## Notes".data, "- [ ] a".data].foldl parseStep
            ⟨true, false, 0, []⟩).tasks = (⟨true, false, 0, []⟩ : PState).tasks) :=
  ⟨by decide, by decide, by decide, by decide,
    claim_C5_h2_closure ⟨true, false, 0, []⟩ _ _ (by decide) (by decide) (by decide)
      (by decide)⟩

/-! ### Serializer shape (C6) -/

theorem to_markdown_ne_nil (t : Task) : t.to_markdown ≠ [] := by
  simp [Task.to_markdown]

theorem to_markdown_no_newline {t : Task}
    (hs : t.status ≠ '\n') (ht : '\n' ∉ t.title) : '\n' ∉ t.to_markdown := by
  simp only [Task.to_markdown, List.mem_cons]
  push_neg
  exact ⟨by decide, by decide, by decide, fun h => hs h.symm, by decide, by decide, ht⟩

theorem getLast?_map_to_markdown (ms : List Task) (hne : ms ≠ []) :
    ∃ t ∈ ms, (ms.map Task.to_markdown).getLast? = some t.to_markdown := by
  induction ms with
  | nil => exact absurd rfl hne
  | cons m ms ih =>
    rcases ms with _ | ⟨m2, ms'⟩
    · exact ⟨m, by simp⟩
    · obtain ⟨t, htm, heq⟩ := ih (by simp)
      refine ⟨t, List.mem_cons_of_mem _ htm, ?_⟩
      rw [List.map_cons, List.map_cons, List.getLast?_cons_cons]
      simpa using heq

/-- C6.  Serializer shape: for every task list (whose statuses and titles
are newline-free, as all parsed tasks are), the serialized section starts
with the Task-section header followed by a newline even when there are no
non-abandoned tasks, and its lines are exactly: the header, a blank line,
each non-abandoned task's canonical line, and — only when at least one
abandoned task exists — a separating blank line, the Abandoned-section
header, a blank line and the abandoned tasks' canonical lines.  (When the
whole list serializes to just the header plus trailing newline, Python's
`splitlines` shows the single header line.) -/
theorem claim_C6_serializer_shape (ts : List Task)
    (h : ∀ t ∈ ts, t.status ≠ '\n' ∧ '\n' ∉ t.title) :
    (TASK_SECTION_HEADER ++ ['\n']) <+: serialize_tasks_to_section ts
      ∧ splitlines (serialize_tasks_to_section ts)
        = if ts.filter (fun t => t.is_abandoned) = [] then
            (if ts.filter (fun t => !t.is_abandoned) = [] then [TASK_SECTION_HEADER]
             else [TASK_SECTION_HEADER, []]
               ++ (ts.filter (fun t => !t.is_abandoned)).map Task.to_markdown)
          else ([TASK_SECTION_HEADER, []]
               ++ (ts.filter (fun t => !t.is_abandoned)).map Task.to_markdown)
               ++ ([[], ABANDONED_SECTION_HEADER, []]
               ++ (ts.filter (fun t => t.is_abandoned)).map Task.to_markdown) := by
  set main := ts.filter (fun t => !t.is_abandoned) with hmain
  set ab := ts.filter (fun t => t.is_abandoned) with hab
  set L := if ab = [] then [TASK_SECTION_HEADER, []] ++ main.map Task.to_markdown
    else ([TASK_SECTION_HEADER, []] ++ main.map Task.to_markdown)
      ++ ([[], ABANDONED_SECTION_HEADER, []] ++ ab.map Task.to_markdown) with hL
  have hser : serialize_tasks_to_section ts = joinLines L := by
    rw [hL]
    unfold serialize_tasks_to_section
    by_cases habe : ab = [] <;> simp [← hmain, ← hab, habe]
  have hLshape : ∃ rest, L = TASK_SECTION_HEADER :: [] :: rest := by
    rw [hL]
    by_cases habe : ab = []
    · rw [if_pos habe]
      exact ⟨main.map Task.to_markdown, rfl⟩
    · rw [if_neg habe]
      exact ⟨main.map Task.to_markdown
        ++ ([[], ABANDONED_SECTION_HEADER, []] ++ ab.map Task.to_markdown), by simp⟩
  have hnl : ∀ l ∈ L, '\n' ∉ l := by
    intro l hl
    rw [hL] at hl
    have hmm : ∀ m ∈ ts, '\n' ∉ m.to_markdown := fun m hm =>
      to_markdown_no_newline (h m hm).1 (h m hm).2
    by_cases habe : ab = []
    · rw [if_pos habe] at hl
      simp only [List.mem_append, List.mem_cons, List.not_mem_nil, or_false,
        List.mem_map] at hl
      rcases hl with (rfl | rfl) | ⟨m, hm, rfl⟩
      · decide
      · simp
      · exact hmm m (List.mem_of_mem_filter hm)
    · rw [if_neg habe] at hl
      simp only [List.mem_append, List.mem_cons, List.not_mem_nil, or_false,
        List.mem_map] at hl
      rcases hl with ((rfl | rfl) | ⟨m, hm, rfl⟩) | ((rfl | rfl | rfl) | ⟨m, hm, rfl⟩)
      · decide
      · simp
      · exact hmm m (List.mem_of_mem_filter hm)
      · simp
      · decide
      · simp
      · exact hmm m (List.mem_of_mem_filter hm)
  have hLne : L ≠ [] := by
    obtain ⟨rest, hrest⟩ := hLshape
    rw [hrest]; simp
  have hsa : splitAll (joinLines L) = L := splitAll_joinLines_of_no_newline L hLne hnl
  constructor
  · obtain ⟨rest, hrest⟩ := hLshape
    rw [hser, hrest, joinLines_cons _ (by simp)]
    exact ⟨joinLines ([] :: rest), by simp⟩
  · rw [hser, splitlines_eq, hsa]
    by_cases habe : ab = []
    · by_cases hme : main = []
      · rw [if_pos habe, if_pos hme]
        rw [hL, if_pos habe, hme]
        simp
      · rw [if_pos habe, if_neg hme]
        obtain ⟨t, htm, hlast⟩ := getLast?_map_to_markdown main hme
        have : L.getLast? = some t.to_markdown := by
          rw [hL, if_pos habe, List.getLast?_append, hlast]
          rfl
        rw [this]
        rw [if_neg (by simp [to_markdown_ne_nil t])]
        rw [hL, if_pos habe]
    · rw [if_neg habe]
      obtain ⟨t, htm, hlast⟩ := getLast?_map_to_markdown ab habe
      have : L.getLast? = some t.to_markdown := by
        rw [hL, if_neg habe, List.getLast?_append, List.getLast?_append, hlast]
        rfl
      rw [this]
      rw [if_neg (by simp [to_markdown_ne_nil t])]
      rw [hL, if_neg habe]

/-- Witness for C6 at a list with one done and one abandoned task. -/
theorem claim_C6_witness :
    (∀ t ∈ [Task.mk 1 "a".data 'x' [], Task.mk 2 "b".data '~' []],
        t.status ≠ '\n' ∧ '\n' ∉ t.title)
      ∧ ((TASK_SECTION_HEADER ++ ['\n'])
          <+: serialize_tasks_to_section
            [Task.mk 1 "a".data 'x' [], Task.mk 2 "b".data '~' []]
        ∧ splitlines (serialize_tasks_to_section
            [Task.mk 1 "a".data 'x' [], Task.mk 2 "b".data '~' []])
          = if ([Task.mk 1 "a".data 'x' [], Task.mk 2 "b".data '~' []].filter
                (fun t => t.is_abandoned)) = [] then
              (if ([Task.mk 1 "a".data 'x' [], Task.mk 2 "b".data '~' []].filter
                  (fun t => !t.is_abandoned)) = [] then [TASK_SECTION_HEADER]
               else [TASK_SECTION_HEADER, []]
                 ++ (([Task.mk 1 "a".data 'x' [], Task.mk 2 "b".data '~' []].filter
                   (fun t => !t.is_abandoned)).map Task.to_markdown))
            else ([TASK_SECTION_HEADER, []]
                 ++ (([Task.mk 1 "a".data 'x' [], Task.mk 2 "b".data '~' []].filter
                   (fun t => !t.is_abandoned)).map Task.to_markdown))
                 ++ ([[], ABANDONED_SECTION_HEADER, []]
                 ++ (([Task.mk 1 "a".data 'x' [], Task.mk 2 "b".data '~' []].filter
                   (fun t => t.is_abandoned)).map Task.to_markdown))) := by
  refine ⟨by decide, claim_C6_serializer_shape _ (by decide)⟩

/-! ### Join respects contiguous blocks (for section isolation) -/

theorem joinLines_append (X Y : List Line) (hX : X ≠ []) (hY : Y ≠ []) :
    joinLines (X ++ Y) = joinLines X ++ '\n' :: joinLines Y := by
  induction X with
  | nil => exact absurd rfl hX
  | cons m X ih =>
    rcases X with _ | ⟨m2, X'⟩
    · rw [List.singleton_append, joinLines_cons m hY]
      rfl
    · rw [List.cons_append, joinLines_cons m (by simp), ih (by simp),
        joinLines_cons m (by simp), List.append_assoc]
      rfl

theorem joinLines_prefix (M B : List Line) (h : M ≠ []) :
    joinLines M <+: joinLines (M ++ B) := by
  rcases B with _ | ⟨b, B'⟩
  · simp
  · rw [joinLines_append M (b :: B') h (by simp)]
    exact List.prefix_append _ _

theorem joinLines_suffix (A R : List Line) (h : R ≠ []) :
    joinLines R <:+ joinLines (A ++ R) := by
  rcases A with _ | ⟨a, A'⟩
  · simp
  · rw [joinLines_append (a :: A') R (by simp) h]
    exact (List.suffix_cons '\n' _).trans (List.suffix_append _ _)

theorem joinLines_infix {M E : List Line} (hM : M ≠ []) (h : M <:+: E) :
    joinLines M <:+: joinLines E := by
  obtain ⟨A, B, rfl⟩ := h
  have h1 : joinLines M <+: joinLines (M ++ B) := joinLines_prefix M B hM
  have h2 : joinLines (M ++ B) <:+ joinLines (A ++ (M ++ B)) := by
    refine joinLines_suffix A (M ++ B) ?_
    rcases M with _ | _
    · exact absurd rfl hM
    · simp
  rw [List.append_assoc]
  exact h1.isInfix.trans h2.isInfix

/-! ### The section editors copy non-heading blocks verbatim -/

theorem rtsGo_copy_block (sec : Line) (bs rest : List Line)
    (h : ∀ l ∈ bs, isH2 (stripChars l) = false) :
    rtsGo sec (bs ++ rest) = (bs ++ (rtsGo sec rest).1, (rtsGo sec rest).2) := by
  induction bs with
  | nil => simp
  | cons b bs ih =>
    have hb := h b (List.mem_cons_self b bs)
    have hbT : stripChars b ≠ TASK_SECTION_HEADER := by
      intro hc; rw [hc] at hb; exact absurd hb (by decide)
    have hbA : stripChars b ≠ ABANDONED_SECTION_HEADER := by
      intro hc; rw [hc] at hb; exact absurd hb (by decide)
    rw [List.cons_append, rtsGo, if_neg hbT, if_neg hbA,
      ih (fun l hl => h l (List.mem_cons_of_mem b hl))]
    simp

theorem rssGo_copy_block (summary : Line) (bs rest : List Line)
    (h : ∀ l ∈ bs, isH2 (stripChars l) = false) :
    rssGo summary (bs ++ rest) = (bs ++ (rssGo summary rest).1, (rssGo summary rest).2) := by
  induction bs with
  | nil => simp
  | cons b bs ih =>
    have hb := h b (List.mem_cons_self b bs)
    have hbS : stripChars b ≠ SUMMARY_SECTION_HEADER := by
      intro hc; rw [hc] at hb; exact absurd hb (by decide)
    rw [List.cons_append, rssGo, if_neg hbS,
      ih (fun l hl => h l (List.mem_cons_of_mem b hl))]
    simp

/-- An opaque section (a `## `-headed block whose header is neither the Task
nor the Abandoned header) survives the `replace_tasks_section` loop as a
contiguous block of output lines. -/
theorem rtsGo_keeps_opaque (sec h : Line) (body post : List Line)
    (hH2 : isH2 (stripChars h) = true)
    (hT : stripChars h ≠ TASK_SECTION_HEADER)
    (hA : stripChars h ≠ ABANDONED_SECTION_HEADER)
    (hbody : ∀ l ∈ body, isH2 (stripChars l) = false) :
    ∀ (n : Nat) (pre : List Line), pre.length ≤ n →
      ∃ A B, (rtsGo sec (pre ++ h :: (body ++ post))).1 = A ++ (h :: body) ++ B := by
  intro n
  induction n with
  | zero =>
    intro pre hlen
    rw [List.length_eq_zero.mp (Nat.le_zero.mp hlen)]
    rw [List.nil_append, rtsGo, if_neg hT, if_neg hA,
      rtsGo_copy_block sec body post hbody]
    exact ⟨[], (rtsGo sec post).1, by simp⟩
  | succ n ih =>
    intro pre hlen
    rcases pre with _ | ⟨p, pre⟩
    · exact ih [] (Nat.zero_le n)
    · rw [List.length_cons, Nat.succ_le_succ_iff] at hlen
      rw [List.cons_append, rtsGo]
      have hdw : (pre ++ h :: (body ++ post)).dropWhile (fun l => !isH2 (stripChars l))
          = (pre.dropWhile (fun l => !isH2 (stripChars l))) ++ h :: (body ++ post)
          ∨ (pre ++ h :: (body ++ post)).dropWhile (fun l => !isH2 (stripChars l))
            = [] ++ h :: (body ++ post) := by
        rw [List.dropWhile_append]
        by_cases he : (pre.dropWhile (fun l => !isH2 (stripChars l))).isEmpty
        · rw [if_pos he, List.dropWhile_cons, if_neg (by simp [hH2])]
          exact Or.inr rfl
        · rw [if_neg he]
          exact Or.inl rfl
      have hdwlen : (pre.dropWhile (fun l => !isH2 (stripChars l))).length ≤ n :=
        le_trans (List.dropWhile_suffix _).length_le hlen
      split
      · obtain ⟨A, B, hAB⟩ :
            ∃ A B, (rtsGo sec ((pre ++ h :: (body ++ post)).dropWhile
              (fun l => !isH2 (stripChars l)))).1 = A ++ (h :: body) ++ B := by
          rcases hdw with hdw | hdw
          · rw [hdw]; exact ih _ hdwlen
          · rw [hdw]; exact ih [] (Nat.zero_le n)
        exact ⟨sec :: A, B, by simp [hAB]⟩
      · split
        · obtain ⟨A, B, hAB⟩ :
              ∃ A B, (rtsGo sec ((pre ++ h :: (body ++ post)).dropWhile
                (fun l => !isH2 (stripChars l)))).1 = A ++ (h :: body) ++ B := by
            rcases hdw with hdw | hdw
            · rw [hdw]; exact ih _ hdwlen
            · rw [hdw]; exact ih [] (Nat.zero_le n)
          exact ⟨A, B, hAB⟩
        · obtain ⟨A, B, hAB⟩ := ih pre hlen
          exact ⟨p :: A, B, by simp [hAB]⟩

/-- Same for the `replace_summary_section` loop, for a header that is not
the Summary header. -/
theorem rssGo_keeps_opaque (summary h : Line) (body post : List Line)
    (hH2 : isH2 (stripChars h) = true)
    (hS : stripChars h ≠ SUMMARY_SECTION_HEADER)
    (hbody : ∀ l ∈ body, isH2 (stripChars l) = false) :
    ∀ (n : Nat) (pre : List Line), pre.length ≤ n →
      ∃ A B, (rssGo summary (pre ++ h :: (body ++ post))).1 = A ++ (h :: body) ++ B := by
  intro n
  induction n with
  | zero =>
    intro pre hlen
    rw [List.length_eq_zero.mp (Nat.le_zero.mp hlen)]
    rw [List.nil_append, rssGo, if_neg hS,
      rssGo_copy_block summary body post hbody]
    exact ⟨[], (rssGo summary post).1, by simp⟩
  | succ n ih =>
    intro pre hlen
    rcases pre with _ | ⟨p, pre⟩
    · exact ih [] (Nat.zero_le n)
    · rw [List.length_cons, Nat.succ_le_succ_iff] at hlen
      rw [List.cons_append, rssGo]
      have hdw : (pre ++ h :: (body ++ post)).dropWhile (fun l => !isH2 (stripChars l))
          = (pre.dropWhile (fun l => !isH2 (stripChars l))) ++ h :: (body ++ post)
          ∨ (pre ++ h :: (body ++ post)).dropWhile (fun l => !isH2 (stripChars l))
            = [] ++ h :: (body ++ post) := by
        rw [List.dropWhile_append]
        by_cases he : (pre.dropWhile (fun l => !isH2 (stripChars l))).isEmpty
        · rw [if_pos he, List.dropWhile_cons, if_neg (by simp [hH2])]
          exact Or.inr rfl
        · rw [if_neg he]
          exact Or.inl rfl
      have hdwlen : (pre.dropWhile (fun l => !isH2 (stripChars l))).length ≤ n :=
        le_trans (List.dropWhile_suffix _).length_le hlen
      split
      · obtain ⟨A, B, hAB⟩ :
            ∃ A B, (rssGo summary ((pre ++ h :: (body ++ post)).dropWhile
              (fun l => !isH2 (stripChars l)))).1 = A ++ (h :: body) ++ B := by
          rcases hdw with hdw | hdw
          · rw [hdw]; exact ih _ hdwlen
          · rw [hdw]; exact ih [] (Nat.zero_le n)
        exact ⟨SUMMARY_SECTION_HEADER :: [] :: stripChars summary :: A, B, by simp [hAB]⟩
      · obtain ⟨A, B, hAB⟩ := ih pre hlen
        exact ⟨p :: A, B, by simp [hAB]⟩

/-- C4.  Section isolation: for every document containing an opaque
section — a `## `-headed block whose header is neither the Task, Abandoned
nor Summary header, followed by body lines up to the next `## ` line —
both `replace_tasks_section` and `replace_summary_section` keep that
section's text intact and contiguous in the output (its joined text is a
substring of the output document; all its lines are copied verbatim). -/
theorem claim_C4_section_isolation (doc new : Line) (pre body post : List Line) (h : Line)
    (hsplit : splitlines doc = pre ++ h :: (body ++ post))
    (hH2 : isH2 (stripChars h) = true)
    (hT : stripChars h ≠ TASK_SECTION_HEADER)
    (hA : stripChars h ≠ ABANDONED_SECTION_HEADER)
    (hS : stripChars h ≠ SUMMARY_SECTION_HEADER)
    (hbody : ∀ l ∈ body, isH2 (stripChars l) = false) :
    joinLines (h :: body) <:+: replace_tasks_section doc new
      ∧ joinLines (h :: body) <:+: replace_summary_section doc new := by
  constructor
  · simp only [replace_tasks_section, hsplit]
    obtain ⟨A, B, hAB⟩ :=
      rtsGo_keeps_opaque new h body post hH2 hT hA hbody pre.length pre le_rfl
    split
    · exact joinLines_infix (by simp) ⟨A, B, hAB.symm⟩
    · split
      · exact joinLines_infix (by simp)
          ⟨A, B ++ [[]] ++ [new], by simp [hAB]⟩
      · exact joinLines_infix (by simp)
          ⟨A, B ++ [new], by simp [hAB]⟩
  · simp only [replace_summary_section, hsplit]
    obtain ⟨A, B, hAB⟩ :=
      rssGo_keeps_opaque new h body post hH2 hS hbody pre.length pre le_rfl
    split
    · exact joinLines_infix (by simp) ⟨A, B, hAB.symm⟩
    · split
      · exact joinLines_infix (by simp)
          ⟨A, B ++ [[]] ++ [SUMMARY_SECTION_HEADER, [], stripChars new], by simp [hAB]⟩
      · exact joinLines_infix (by simp)
          ⟨A, B ++ [SUMMARY_SECTION_HEADER, [], stripChars new], by simp [hAB]⟩

/-- Witness for C4: a `## Notes` section with one body line survives both
editors verbatim. -/
theorem claim_C4_witness :
    splitlines ("## Notes\nhello".data)
        = [] ++ "## Notes".data :: (["hello".data] ++ [])
      ∧ isH2 (stripChars "## Notes".data) = true
      ∧ stripChars "## Notes".data ≠ TASK_SECTION_HEADER
      ∧ stripChars "## Notes".data ≠ ABANDONED_SECTION_HEADER
      ∧ stripChars "## Notes".data ≠ SUMMARY_SECTION_HEADER
      ∧ (∀ l ∈ ["hello".data], isH2 (stripChars l) = false)
      ∧ (joinLines ("## Notes".data :: ["hello".data])
            <:+: replace_tasks_section ("## Notes\nhello".data) ("NEW".data)
          ∧ joinLines ("## Notes".data :: ["hello".data])
            <:+: replace_summary_section ("## Notes\nhello".data) ("NEW".data)) := by
  refine ⟨by decide, by decide, by decide, by decide, by decide, by decide, ?_⟩
  exact claim_C4_section_isolation "## Notes\nhello".data "NEW".data [] ["hello".data] []
    "## Notes".data (by decide) (by decide) (by decide) (by decide) (by decide) (by decide)

/-! ### Counting Task-header lines -/

theorem isTaskHeaderLine_iff {l : Line} :
    isTaskHeaderLine l = true ↔ stripChars l = TASK_SECTION_HEADER := by
  simp [isTaskHeaderLine]

theorem countP_splitlines_eq (cs : Line) :
    (splitlines cs).countP isTaskHeaderLine = headerLineCount cs := by
  unfold headerLineCount
  rw [splitlines_eq]
  split
  case isTrue h =>
    have hne := splitAll_ne_nil cs
    have hl : (splitAll cs).getLast hne = [] := by
      have h2 := List.getLast?_eq_getLast (splitAll cs) hne
      rw [h] at h2
      exact (Option.some_inj.mp h2).symm
    conv_rhs => rw [← List.dropLast_append_getLast hne]
    rw [List.countP_append, hl]
    have : List.countP isTaskHeaderLine [([] : Line)] = 0 := by decide
    rw [this]
    omega
  case isFalse => rfl

theorem headerLineCount_append (a b : Line) :
    headerLineCount (a ++ '\n' :: b) = headerLineCount a + headerLineCount b := by
  unfold headerLineCount
  rw [splitAll_append_newline, List.countP_append]

theorem headerLineCount_joinLines (E : List Line) :
    headerLineCount (joinLines E) = (E.map headerLineCount).sum := by
  induction E with
  | nil =>
    have : headerLineCount [] = 0 := by decide
    simpa [joinLines] using this
  | cons l ls ih =>
    rcases ls with _ | ⟨l2, rest⟩
    · simp [joinLines]
    · rw [joinLines_cons l (by simp), headerLineCount_append, ih]
      simp

theorem headerLineCount_line {l : Line} (h : '\n' ∉ l) :
    headerLineCount l = if isTaskHeaderLine l then 1 else 0 := by
  unfold headerLineCount
  rw [splitAll_no_newline h, List.countP_cons, List.countP_nil]
  simp

theorem countP_taskHeader_dropWhile (lines : List Line) :
    (lines.dropWhile (fun l => !isH2 (stripChars l))).countP isTaskHeaderLine
      = lines.countP isTaskHeaderLine := by
  conv_rhs => rw [← List.takeWhile_append_dropWhile (fun l => !isH2 (stripChars l)) lines]
  rw [List.countP_append]
  have h0 : (lines.takeWhile (fun l => !isH2 (stripChars l))).countP isTaskHeaderLine = 0 := by
    rw [List.countP_eq_zero]
    intro a ha
    have hpa := List.mem_takeWhile_imp ha
    intro hta
    rw [isTaskHeaderLine_iff.mp hta] at hpa
    exact absurd hpa (by decide)
  omega

/-! ### The replace-tasks loop: counting, flag and membership -/

theorem rtsGo_count (sec : Line) :
    ∀ (n : Nat) (lines : List Line), lines.length ≤ n → (∀ l ∈ lines, '\n' ∉ l) →
    (((rtsGo sec lines).1).map headerLineCount).sum
      = lines.countP isTaskHeaderLine * headerLineCount sec := by
  intro n
  induction n with
  | zero =>
    intro lines hlen _
    rw [List.length_eq_zero.mp (Nat.le_zero.mp hlen)]
    simp [rtsGo]
  | succ n ih =>
    intro lines hlen hnl
    rcases lines with _ | ⟨line, rest⟩
    · simp [rtsGo]
    · rw [List.length_cons, Nat.succ_le_succ_iff] at hlen
      have hdlen : (rest.dropWhile (fun l => !isH2 (stripChars l))).length ≤ n :=
        le_trans (List.dropWhile_suffix _).length_le hlen
      have hdnl : ∀ l ∈ rest.dropWhile (fun l => !isH2 (stripChars l)), '\n' ∉ l :=
        fun l hl => hnl l (List.mem_cons_of_mem _ ((List.dropWhile_suffix _).subset hl))
      rw [rtsGo]
      by_cases hT : stripChars line = TASK_SECTION_HEADER
      · rw [if_pos hT]
        simp only [List.map_cons, List.sum_cons]
        rw [ih _ hdlen hdnl, countP_taskHeader_dropWhile rest, List.countP_cons,
          if_pos (isTaskHeaderLine_iff.mpr hT), Nat.add_mul, Nat.one_mul, Nat.add_comm]
      · rw [if_neg hT]
        by_cases hA : stripChars line = ABANDONED_SECTION_HEADER
        · rw [if_pos hA]
          rw [ih _ hdlen hdnl, countP_taskHeader_dropWhile rest, List.countP_cons]
          have : isTaskHeaderLine line = false := by
            rw [Bool.eq_false_iff]
            intro hc
            rw [isTaskHeaderLine_iff.mp hc] at hA
            exact absurd hA (by decide)
          rw [this]
          simp
        · rw [if_neg hA]
          simp only [List.map_cons, List.sum_cons]
          rw [ih rest hlen (fun l hl => hnl l (List.mem_cons_of_mem _ hl)),
            headerLineCount_line (hnl line (List.mem_cons_self line rest)),
            List.countP_cons]
          have : isTaskHeaderLine line = false := by
            rw [Bool.eq_false_iff]
            intro hc
            exact hT (isTaskHeaderLine_iff.mp hc)
          rw [this]
          simp

theorem rtsGo_replaced (sec : Line) :
    ∀ (n : Nat) (lines : List Line), lines.length ≤ n →
    ((rtsGo sec lines).2 = true ↔ lines.countP isTaskHeaderLine ≠ 0) := by
  intro n
  induction n with
  | zero =>
    intro lines hlen
    rw [List.length_eq_zero.mp (Nat.le_zero.mp hlen)]
    simp [rtsGo]
  | succ n ih =>
    intro lines hlen
    rcases lines with _ | ⟨line, rest⟩
    · simp [rtsGo]
    · rw [List.length_cons, Nat.succ_le_succ_iff] at hlen
      have hdlen : (rest.dropWhile (fun l => !isH2 (stripChars l))).length ≤ n :=
        le_trans (List.dropWhile_suffix _).length_le hlen
      rw [rtsGo]
      by_cases hT : stripChars line = TASK_SECTION_HEADER
      · rw [if_pos hT]
        simp only [List.countP_cons, if_pos (isTaskHeaderLine_iff.mpr hT)]
        simp
      · rw [if_neg hT]
        have hline0 : isTaskHeaderLine line = false := by
          rw [Bool.eq_false_iff]
          intro hc
          exact hT (isTaskHeaderLine_iff.mp hc)
        by_cases hA : stripChars line = ABANDONED_SECTION_HEADER
        · rw [if_pos hA, ih _ hdlen, countP_taskHeader_dropWhile rest,
            List.countP_cons, hline0]
          simp
        · rw [if_neg hA]
          rw [ih rest hlen]
          rw [List.countP_cons, hline0]
          simp

theorem rtsGo_mem (sec : Line) :
    ∀ (n : Nat) (lines : List Line), lines.length ≤ n →
    ∀ l ∈ (rtsGo sec lines).1,
      l = sec ∨ (l ∈ lines ∧ stripChars l ≠ TASK_SECTION_HEADER
        ∧ stripChars l ≠ ABANDONED_SECTION_HEADER) := by
  intro n
  induction n with
  | zero =>
    intro lines hlen
    rw [List.length_eq_zero.mp (Nat.le_zero.mp hlen)]
    simp [rtsGo]
  | succ n ih =>
    intro lines hlen
    rcases lines with _ | ⟨line, rest⟩
    · simp [rtsGo]
    · rw [List.length_cons, Nat.succ_le_succ_iff] at hlen
      have hdlen : (rest.dropWhile (fun l => !isH2 (stripChars l))).length ≤ n :=
        le_trans (List.dropWhile_suffix _).length_le hlen
      have hsub : ∀ l ∈ rest.dropWhile (fun l => !isH2 (stripChars l)), l ∈ line :: rest :=
        fun l hl => List.mem_cons_of_mem _ ((List.dropWhile_suffix _).subset hl)
      intro l hl
      rw [rtsGo] at hl
      by_cases hT : stripChars line = TASK_SECTION_HEADER
      · rw [if_pos hT] at hl
        rcases List.mem_cons.mp hl with hl | hl
        · exact Or.inl hl
        · rcases ih _ hdlen l hl with h | ⟨hmem, hne⟩
          · exact Or.inl h
          · exact Or.inr ⟨hsub l hmem, hne⟩
      · rw [if_neg hT] at hl
        by_cases hA : stripChars line = ABANDONED_SECTION_HEADER
        · rw [if_pos hA] at hl
          rcases ih _ hdlen l hl with h | ⟨hmem, hne⟩
          · exact Or.inl h
          · exact Or.inr ⟨hsub l hmem, hne⟩
        · rw [if_neg hA] at hl
          rcases List.mem_cons.mp hl with hl | hl
          · subst hl
            exact Or.inr ⟨List.mem_cons_self _ _, hT, hA⟩
          · rcases ih rest hlen l hl with h | ⟨hmem, hne⟩
            · exact Or.inl h
            · exact Or.inr ⟨List.mem_cons_of_mem _ hmem, hne⟩

theorem rtsGoF_eq (sec : Line) :
    ∀ (n : Nat) (lines : List Line), lines.length ≤ n →
    rtsGoF sec n lines = rtsGo sec lines := by
  intro n
  induction n with
  | zero =>
    intro lines hlen
    rw [List.length_eq_zero.mp (Nat.le_zero.mp hlen)]
    simp [rtsGo, rtsGoF]
  | succ n ih =>
    intro lines hlen
    rcases lines with _ | ⟨line, rest⟩
    · simp [rtsGo, rtsGoF]
    · rw [List.length_cons, Nat.succ_le_succ_iff] at hlen
      have hdlen : (rest.dropWhile (fun l => !isH2 (stripChars l))).length ≤ n :=
        le_trans (List.dropWhile_suffix _).length_le hlen
      rw [rtsGoF, rtsGo]
      by_cases hT : stripChars line = TASK_SECTION_HEADER
      · rw [if_pos hT, if_pos hT, ih _ hdlen]
      · rw [if_neg hT, if_neg hT]
        by_cases hA : stripChars line = ABANDONED_SECTION_HEADER
        · rw [if_pos hA, if_pos hA, ih _ hdlen]
        · rw [if_neg hA, if_neg hA, ih rest hlen]

theorem replace_tasks_sectionF_eq (content sec : Line) :
    replace_tasks_sectionF content sec = replace_tasks_section content sec := by
  unfold replace_tasks_sectionF replace_tasks_section
  rw [rtsGoF_eq sec (splitlines content).length (splitlines content) le_rfl]

theorem rtsGo_no_headers (sec : Line) (lines : List Line)
    (h : ∀ l ∈ lines, stripChars l ≠ TASK_SECTION_HEADER
      ∧ stripChars l ≠ ABANDONED_SECTION_HEADER) :
    rtsGo sec lines = (lines, false) := by
  induction lines with
  | nil => simp [rtsGo]
  | cons line rest ih =>
    have hline := h line (List.mem_cons_self line rest)
    rw [rtsGo, if_neg hline.1, if_neg hline.2,
      ih (fun l hl => h l (List.mem_cons_of_mem line hl))]

/-- C8, counterexample.  The claim quantifies over every replacement text
that *begins with* the Task-section header line.  A replacement text that
contains the header line twice breaks idempotence: starting from the empty
document, two applications leave four header lines, not one. -/
theorem claim_C8_counterexample :
    (splitlines ("".data)).countP isTaskHeaderLine = 0
      ∧ (splitAll ("## 任务\nx\n## 任务".data)).headD [] = TASK_SECTION_HEADER
      ∧ headerLineCount
          (replace_tasks_section
            (replace_tasks_section ("".data) ("## 任务\nx\n## 任务".data))
            ("## 任务\nx\n## 任务".data)) = 4
      ∧ headerLineCount
          (replace_tasks_section
            (replace_tasks_section ("".data) ("## 任务\nx\n## 任务".data))
            ("## 任务\nx\n## 任务".data)) ≠ 1 := by
  have h1 : replace_tasks_section ("".data) ("## 任务\nx\n## 任务".data)
      = replace_tasks_sectionF ("".data) ("## 任务\nx\n## 任务".data) :=
    (replace_tasks_sectionF_eq _ _).symm
  have h2 : replace_tasks_section
        (replace_tasks_sectionF ("".data) ("## 任务\nx\n## 任务".data))
        ("## 任务\nx\n## 任务".data)
      = replace_tasks_sectionF
        (replace_tasks_sectionF ("".data) ("## 任务\nx\n## 任务".data))
        ("## 任务\nx\n## 任务".data) :=
    (replace_tasks_sectionF_eq _ _).symm
  refine ⟨by decide, by decide, ?_, ?_⟩
  · rw [h1, h2]
    decide
  · rw [h1, h2]
    decide

/-- C8, amended.  For every document lacking the Task-section header and
every replacement text that begins with the Task-section header line *and
contains it exactly once*, applying `replace_tasks_section` twice in a row
yields a document with exactly one Task-section header line; the first
application appends the text at the end (with a blank-line separator when
the document, containing no Abandoned header, does not end on a blank
line), and never errors (the function is total). -/
theorem claim_C8_missing_header_append (doc new : Line)
    (hdoc : (splitlines doc).countP isTaskHeaderLine = 0)
    (hstart : (splitAll new).headD [] = TASK_SECTION_HEADER)
    (hone : headerLineCount new = 1) :
    headerLineCount (replace_tasks_section (replace_tasks_section doc new) new) = 1
      ∧ (∃ p, replace_tasks_section doc new = p ++ new)
      ∧ ((splitlines doc ≠ []
            ∧ (∀ l ∈ splitlines doc, stripChars l ≠ ABANDONED_SECTION_HEADER)
            ∧ stripChars ((splitlines doc).getLastD []) ≠ [])
          → replace_tasks_section doc new
            = joinLines (splitlines doc) ++ '\n' :: '\n' :: new) := by
  have hflag : (rtsGo new (splitlines doc)).2 = false := by
    have h1 := rtsGo_replaced new (splitlines doc).length (splitlines doc) le_rfl
    rcases hb : (rtsGo new (splitlines doc)).2 with _ | _
    · rfl
    · exact absurd (h1.mp hb) (by simp [hdoc])
  have hsum0 : (((rtsGo new (splitlines doc)).1).map headerLineCount).sum = 0 := by
    rw [rtsGo_count new (splitlines doc).length (splitlines doc) le_rfl
      (no_newline_of_mem_splitlines doc), hdoc]
    simp
  have hend : replace_tasks_section doc new
      = joinLines ((if stripChars (((rtsGo new (splitlines doc)).1).getLastD []) ≠ []
          then (rtsGo new (splitlines doc)).1 ++ [[]]
          else (rtsGo new (splitlines doc)).1) ++ [new]) := by
    simp only [replace_tasks_section, hflag, Bool.false_eq_true, if_false]
  have hzero : headerLineCount ([] : Line) = 0 := by decide
  have hcount1 : headerLineCount (replace_tasks_section doc new) = 1 := by
    rw [hend, headerLineCount_joinLines, List.map_append, List.sum_append]
    split
    · rw [List.map_append, List.sum_append]
      simp [hsum0, hzero, hone]
    · simp [hsum0, hone]
  refine ⟨?_, ?_, ?_⟩
  · set R1 := replace_tasks_section doc new with hR1
    have hL2 : (splitlines R1).countP isTaskHeaderLine = 1 := by
      rw [countP_splitlines_eq, hcount1]
    have hflag2 : (rtsGo new (splitlines R1)).2 = true :=
      (rtsGo_replaced new (splitlines R1).length (splitlines R1) le_rfl).mpr
        (by simp [hL2])
    have hsum2 : (((rtsGo new (splitlines R1)).1).map headerLineCount).sum = 1 := by
      rw [rtsGo_count new (splitlines R1).length (splitlines R1) le_rfl
        (no_newline_of_mem_splitlines R1), hL2, hone]
    calc headerLineCount (replace_tasks_section R1 new)
        = headerLineCount (joinLines (rtsGo new (splitlines R1)).1) := by
          simp only [replace_tasks_section, hflag2, if_true]
      _ = 1 := by rw [headerLineCount_joinLines, hsum2]
  · rw [hend]
    set X := (if stripChars (((rtsGo new (splitlines doc)).1).getLastD []) ≠ []
      then (rtsGo new (splitlines doc)).1 ++ [[]]
      else (rtsGo new (splitlines doc)).1) with hX
    clear_value X
    rcases X with _ | ⟨x, X'⟩
    · exact ⟨[], by simp [joinLines]⟩
    · rw [joinLines_append (x :: X') [new] (by simp) (by simp)]
      exact ⟨joinLines (x :: X') ++ ['\n'], by simp [joinLines]⟩
  · rintro ⟨hne, hnoAb, hlast⟩
    have hnoH : ∀ l ∈ splitlines doc, stripChars l ≠ TASK_SECTION_HEADER := by
      intro l hl hc
      have h0 := List.countP_eq_zero.mp hdoc l hl
      exact h0 (isTaskHeaderLine_iff.mpr hc)
    have hgo : rtsGo new (splitlines doc) = (splitlines doc, false) :=
      rtsGo_no_headers new (splitlines doc) (fun l hl => ⟨hnoH l hl, hnoAb l hl⟩)
    rw [hend, hgo]
    simp only
    rw [if_pos (by simpa using hlast), List.append_assoc,
      joinLines_append (splitlines doc) ([[]] ++ [new]) hne (by simp)]
    rfl

/-- Witness for C8 (amended): appending a fresh one-header section to a
header-less one-line document twice keeps a single Task-section block. -/
theorem claim_C8_witness :
    (splitlines ("# hi".data)).countP isTaskHeaderLine = 0
      ∧ (splitAll ("## 任务\n\n- [ ] a".data)).headD [] = TASK_SECTION_HEADER
      ∧ headerLineCount ("## 任务\n\n- [ ] a".data) = 1
      ∧ (headerLineCount (replace_tasks_section
            (replace_tasks_section ("# hi".data) ("## 任务\n\n- [ ] a".data))
            ("## 任务\n\n- [ ] a".data)) = 1
        ∧ (∃ p, replace_tasks_section ("# hi".data) ("## 任务\n\n- [ ] a".data)
            = p ++ ("## 任务\n\n- [ ] a".data))
        ∧ ((splitlines ("# hi".data) ≠ []
              ∧ (∀ l ∈ splitlines ("# hi".data),
                  stripChars l ≠ ABANDONED_SECTION_HEADER)
              ∧ stripChars ((splitlines ("# hi".data)).getLastD []) ≠ [])
            → replace_tasks_section ("# hi".data) ("## 任务\n\n- [ ] a".data)
              = joinLines (splitlines ("# hi".data))
                  ++ '\n' :: '\n' :: ("## 任务\n\n- [ ] a".data))) := by
  refine ⟨by decide, by decide, by decide, ?_⟩
  exact claim_C8_missing_header_append ("# hi".data) ("## 任务\n\n- [ ] a".data)
    (by decide) (by decide) (by decide)

/-- The loop of `replace_tasks_section` deletes an Abandoned section —
header line plus body up to the next `## ` line (or end of file) — wherever
it occurs, whether or not a Task-section header exists anywhere. -/
theorem rtsGo_drops_abandoned (sec ab : Line) (body post : List Line)
    (hab : stripChars ab = ABANDONED_SECTION_HEADER)
    (hbody : ∀ l ∈ body, isH2 (stripChars l) = false)
    (hpost : post = [] ∨ ∃ p rest, post = p :: rest ∧ isH2 (stripChars p) = true) :
    ∀ (n : Nat) (pre : List Line), pre.length ≤ n →
      rtsGo sec (pre ++ ab :: (body ++ post)) = rtsGo sec (pre ++ post) := by
  have habH : stripChars ab ≠ TASK_SECTION_HEADER := by
    rw [hab]; decide
  have habP : (!isH2 (stripChars ab)) = false := by
    rw [hab]; decide
  have hdroppost : post.dropWhile (fun l => !isH2 (stripChars l)) = post := by
    rcases hpost with rfl | ⟨p1, rest1, rfl, hH⟩
    · rfl
    · rw [List.dropWhile_cons, if_neg (by simp [hH])]
  have hdropbody : (body ++ post).dropWhile (fun l => !isH2 (stripChars l)) = post := by
    rw [List.dropWhile_append]
    have hb : (body.dropWhile (fun l => !isH2 (stripChars l))) = [] := by
      rw [List.dropWhile_eq_nil_iff]
      intro x hx
      simp [hbody x hx]
    rw [hb]
    simp [hdroppost]
  intro n
  induction n with
  | zero =>
    intro pre hlen
    rw [List.length_eq_zero.mp (Nat.le_zero.mp hlen)]
    rw [List.nil_append, List.nil_append, rtsGo, if_neg habH, if_pos hab, hdropbody]
  | succ n ih =>
    intro pre hlen
    rcases pre with _ | ⟨p, pre⟩
    · exact ih [] (Nat.zero_le n)
    · rw [List.length_cons, Nat.succ_le_succ_iff] at hlen
      have hkey : rtsGo sec ((pre ++ ab :: (body ++ post)).dropWhile
            (fun l => !isH2 (stripChars l)))
          = rtsGo sec ((pre ++ post).dropWhile (fun l => !isH2 (stripChars l))) := by
        rw [List.dropWhile_append, List.dropWhile_append]
        by_cases he : (pre.dropWhile (fun l => !isH2 (stripChars l))).isEmpty
        · rw [if_pos he, if_pos he, List.dropWhile_cons, if_neg (by simp [habP]),
            hdroppost]
          have h0 := ih [] (Nat.zero_le n)
          simpa using h0
        · rw [if_neg he, if_neg he]
          have h0 := ih (pre.dropWhile (fun l => !isH2 (stripChars l)))
            (le_trans (List.dropWhile_suffix _).length_le hlen)
          simpa using h0
      rw [List.cons_append, List.cons_append, rtsGo, rtsGo]
      by_cases hpT : stripChars p = TASK_SECTION_HEADER
      · rw [if_pos hpT, if_pos hpT, hkey]
      · rw [if_neg hpT, if_neg hpT]
        by_cases hpA : stripChars p = ABANDONED_SECTION_HEADER
        · rw [if_pos hpA, if_pos hpA, hkey]
        · rw [if_neg hpA, if_neg hpA, ih pre hlen]

/-- C10.  `replace_tasks_section` removes every Abandoned section
(`## 已废弃` header plus its body up to the next `## ` line or end of file)
wherever it occurs — the result equals the result on a document whose line
list lacks that whole section, even when the section does not follow the
Task section and even when no Task-section header exists (in which case the
new text is appended but the old Abandoned section is still deleted);
moreover no surviving non-replacement output line of the loop is an
Abandoned header line. -/
theorem claim_C10_abandoned_removed (doc doc2 new : Line) (pre body post : List Line)
    (ab : Line)
    (hsplit : splitlines doc = pre ++ ab :: (body ++ post))
    (hab : stripChars ab = ABANDONED_SECTION_HEADER)
    (hbody : ∀ l ∈ body, isH2 (stripChars l) = false)
    (hpost : post = [] ∨ ∃ p rest, post = p :: rest ∧ isH2 (stripChars p) = true)
    (hsplit2 : splitlines doc2 = pre ++ post) :
    replace_tasks_section doc new = replace_tasks_section doc2 new
      ∧ ∀ l ∈ (rtsGo new (splitlines doc)).1,
          l = new ∨ stripChars l ≠ ABANDONED_SECTION_HEADER := by
  constructor
  · simp only [replace_tasks_section, hsplit, hsplit2,
      rtsGo_drops_abandoned new ab body post hab hbody hpost pre.length pre le_rfl]
  · intro l hl
    rcases rtsGo_mem new (splitlines doc).length (splitlines doc) le_rfl l hl with
      h | ⟨_, _, hne⟩
    · exact Or.inl h
    · exact Or.inr hne

/-- Witness for C10: the Abandoned section of a document with no Task
header is deleted; the result equals that of the document without it. -/
theorem claim_C10_witness :
    splitlines ("# t\n## 已废弃\n- [x] a\n## Notes\nbody".data)
        = ["# t".data] ++ "## 已废弃".data
            :: (["- [x] a".data] ++ ["## Notes".data, "body".data])
      ∧ stripChars ("## 已废弃".data) = ABANDONED_SECTION_HEADER
      ∧ (∀ l ∈ ["- [x] a".data], isH2 (stripChars l) = false)
      ∧ (["## Notes".data, "body".data] = ([] : List Line)
          ∨ ∃ p rest, ["## Notes".data, "body".data] = p :: rest
              ∧ isH2 (stripChars p) = true)
      ∧ splitlines ("# t\n## Notes\nbody".data)
          = ["# t".data] ++ ["## Notes".data, "body".data]
      ∧ (replace_tasks_section ("# t\n## 已废弃\n- [x] a\n## Notes\nbody".data) ("S".data)
            = replace_tasks_section ("# t\n## Notes\nbody".data) ("S".data)
          ∧ ∀ l ∈ (rtsGo ("S".data)
              (splitlines ("# t\n## 已废弃\n- [x] a\n## Notes\nbody".data))).1,
            l = "S".data ∨ stripChars l ≠ ABANDONED_SECTION_HEADER) := by
  refine ⟨by decide, by decide, by decide, ?_, by decide, ?_⟩
  · exact Or.inr ⟨"## Notes".data, ["body".data], rfl, by decide⟩
  · exact claim_C10_abandoned_removed
      ("# t\n## 已废弃\n- [x] a\n## Notes\nbody".data) ("# t\n## Notes\nbody".data)
      ("S".data) ["# t".data] ["- [x] a".data] ["## Notes".data, "body".data]
      ("## 已废弃".data) (by decide) (by decide) (by decide)
      (Or.inr ⟨"## Notes".data, ["body".data], rfl, by decide⟩) (by decide)

/-! ### Canonical task lines parse back to themselves -/

theorem serialize_eq_joinLines (ts : List Task) :
    serialize_tasks_to_section ts = joinLines (serializeLines ts) := by
  unfold serialize_tasks_to_section serializeLines
  by_cases h : ts.filter (fun t => t.is_abandoned) = [] <;> simp [h]

theorem stripChars_eq_self_parts {l : Line} (h : stripChars l = l) :
    l.dropWhile Char.isWhitespace = l ∧ List.rdropWhile Char.isWhitespace l = l := by
  have h1 : (l.dropWhile Char.isWhitespace) <:+ l := List.dropWhile_suffix _
  have h2 : List.rdropWhile Char.isWhitespace (l.dropWhile Char.isWhitespace)
      <+: l.dropWhile Char.isWhitespace := List.rdropWhile_prefix _ _
  rw [stripChars_eq_rdrop] at h
  have hlen := congrArg List.length h
  have hle1 := h1.length_le
  have hle2 := h2.length_le
  have hdlen : (l.dropWhile Char.isWhitespace).length = l.length := by omega
  have hd : l.dropWhile Char.isWhitespace = l := h1.eq_of_length hdlen
  rw [hd] at h
  exact ⟨hd, h⟩

theorem parseTaskLineChars_to_markdown (t : Task)
    (hs : t.status = ' ' ∨ t.status = 'x' ∨ t.status = '~')
    (ht : stripChars t.title = t.title) :
    parseTaskLineChars t.to_markdown = some (t.status, t.title) := by
  have hsX : ¬(t.status = 'X') := by
    rcases hs with h | h | h <;> rw [h] <;> decide
  have hguard : t.status = ' ' ∨ t.status = 'x' ∨ t.status = 'X' ∨ t.status = '~' := by
    rcases hs with h | h | h
    · exact Or.inl h
    · exact Or.inr (Or.inl h)
    · exact Or.inr (Or.inr (Or.inr h))
  have hdw : (t.to_markdown).dropWhile Char.isWhitespace = t.to_markdown := by
    rw [Task.to_markdown, List.dropWhile_cons, if_neg (by decide)]
  rcases htl : t.title with _ | ⟨u, us⟩
  · have hmd : t.to_markdown = ['-', ' ', '[', t.status, ']'] ++ [' '] := by
      rw [Task.to_markdown, htl]
      rfl
    have hstrip : stripChars t.to_markdown = '-' :: ' ' :: '[' :: t.status :: ']' :: [] := by
      rw [stripChars_eq_rdrop, hdw, hmd, List.rdropWhile_concat, if_pos (by decide),
        show (['-', ' ', '[', t.status, ']'] : Line)
          = ['-', ' ', '[', t.status] ++ [']'] from rfl,
        List.rdropWhile_concat, if_neg (by decide)]
    rw [parseTaskLineChars, hstrip]
    simp only [List.dropWhile_cons, if_pos (by decide : Char.isWhitespace ' ' = true),
      List.dropWhile_nil, if_neg (by decide : ¬(Char.isWhitespace '[' = true))]
    rw [if_pos hguard, if_neg hsX]
    rfl
  · have htne : t.title ≠ [] := by rw [htl]; simp
    have hparts := stripChars_eq_self_parts ht
    have hlastne : ¬(Char.isWhitespace (t.title.getLast htne) = true) :=
      List.rdropWhile_eq_self_iff.mp hparts.2 htne
    have hmd : t.to_markdown
        = (('-' :: ' ' :: '[' :: t.status :: ']' :: ' ' :: t.title.dropLast)
            ++ [t.title.getLast htne]) := by
      rw [Task.to_markdown]
      have h0 := List.dropLast_append_getLast htne
      conv_lhs => rw [← h0]
      simp
    have hstrip : stripChars t.to_markdown = t.to_markdown := by
      rw [stripChars_eq_rdrop, hdw]
      conv_lhs => rw [hmd]
      rw [List.rdropWhile_concat, if_neg hlastne, ← hmd]
    have hheadu : ¬(Char.isWhitespace u = true) := by
      have hd := hparts.1
      rw [htl, List.dropWhile_cons] at hd
      by_cases hu : Char.isWhitespace u
      · rw [if_pos hu] at hd
        have := congrArg List.length hd
        have hle := (List.dropWhile_suffix (p := Char.isWhitespace) (l := us)).length_le
        simp at this
        omega
      · exact hu
    have hst : stripChars (' ' :: t.title) = t.title := by
      rw [stripChars_eq_rdrop, List.dropWhile_cons, if_pos (by decide), htl,
        List.dropWhile_cons, if_neg hheadu, ← htl, hparts.2]
    rw [parseTaskLineChars, hstrip, Task.to_markdown]
    simp only [List.dropWhile_cons, if_pos (by decide : Char.isWhitespace ' ' = true),
      if_neg (by decide : ¬(Char.isWhitespace '[' = true))]
    rw [if_pos hguard, if_neg hsX]
    rw [hst, htl]

theorem parseTaskLineChars_not_heading {line : Line} {c : Char} {t2 : Line}
    (h : parseTaskLineChars line = some (c, t2)) :
    stripChars line ≠ TASK_SECTION_HEADER ∧ stripChars line ≠ ABANDONED_SECTION_HEADER
      ∧ isH2 (stripChars line) = false := by
  unfold parseTaskLineChars at h
  split at h
  case _ rest heq =>
    refine ⟨?_, ?_, ?_⟩
    · rw [heq]
      intro hc
      have h2 : (('-' : Char) :: rest).head? = TASK_SECTION_HEADER.head? := by rw [hc]
      rw [List.head?_cons, show TASK_SECTION_HEADER.head? = some '#' from by decide] at h2
      exact absurd (Option.some_inj.mp h2) (by decide)
    · rw [heq]
      intro hc
      have h2 : (('-' : Char) :: rest).head? = ABANDONED_SECTION_HEADER.head? := by rw [hc]
      rw [List.head?_cons, show ABANDONED_SECTION_HEADER.head? = some '#' from by decide] at h2
      exact absurd (Option.some_inj.mp h2) (by decide)
    · rw [heq]
      simp [isH2, List.isPrefixOf, show (('#' : Char) == '-') = false from by decide]
  case _ => exact absurd h (by simp)

theorem canonTasks_append (k : Nat) (xs ys : List Task) :
    canonTasks k (xs ++ ys) = canonTasks k xs ++ canonTasks (k + xs.length) ys := by
  induction xs generalizing k with
  | nil => simp [canonTasks]
  | cons x xs ih =>
    rw [List.cons_append, canonTasks, canonTasks, ih (k + 1), List.length_cons]
    have h : k + 1 + xs.length = k + (xs.length + 1) := by omega
    rw [h, List.cons_append]

theorem keys_canonTasks (ls : List Task) :
    ∀ k, ls.map Task.index = List.range' (k + 1) ls.length →
    keys (canonTasks k ls) = keys ls := by
  induction ls with
  | nil => intro k _; rfl
  | cons t ls ih =>
    intro k h
    rw [List.map_cons, List.length_cons, List.range'_succ] at h
    injection h with h1 h2
    unfold keys at ih ⊢
    rw [canonTasks, List.map_cons, List.map_cons]
    congr 1
    · simp [Task.key, h1]
    · exact ih (k + 1) h2

theorem parseFrom_canonical (inT inA : Bool) (hflag : (inT || inA) = true) :
    ∀ (ms : List Task) (k : Nat) (R : List Line),
    (∀ t ∈ ms, (t.status = ' ' ∨ t.status = 'x' ∨ t.status = '~')
      ∧ stripChars t.title = t.title ∧ (inA = true → t.status = '~')) →
    parseFrom inT inA k (ms.map Task.to_markdown ++ R)
      = canonTasks k ms ++ parseFrom inT inA (k + ms.length) R := by
  intro ms
  induction ms with
  | nil => intro k R _; simp [canonTasks]
  | cons t ms ih =>
    intro k R hm
    obtain ⟨hs, ht, hA⟩ := hm t (List.mem_cons_self t ms)
    have hline := parseTaskLineChars_to_markdown t hs ht
    have hhd := parseTaskLineChars_not_heading hline
    rw [List.map_cons, List.cons_append]
    simp only [parseFrom]
    rw [if_neg hhd.1, if_neg hhd.2.1, if_neg (by simp [hhd.2.2]), if_pos hflag, hline]
    simp only
    rw [ih (k + 1) R (fun x hx => hm x (List.mem_cons_of_mem t hx))]
    rw [canonTasks, List.length_cons]
    have harith : k + 1 + ms.length = k + (ms.length + 1) := by omega
    rw [harith, List.cons_append]
    congr 2
    by_cases hA2 : inA
    · rw [if_pos hA2, hA hA2]
    · rw [if_neg hA2]

theorem parseFrom_tail_closed (R : List Line) (inT inA : Bool) (idx : Nat)
    (hR : ∀ l ∈ R, stripChars l ≠ TASK_SECTION_HEADER
      ∧ stripChars l ≠ ABANDONED_SECTION_HEADER)
    (hhead : R = [] ∨ ∃ p rest, R = p :: rest ∧ isH2 (stripChars p) = true) :
    parseFrom inT inA idx R = [] := by
  rcases hhead with rfl | ⟨p, rest, rfl, hH⟩
  · rfl
  · have hp := hR p (List.mem_cons_self p rest)
    simp only [parseFrom]
    rw [if_neg hp.1, if_neg hp.2, if_pos hH]
    exact parseFrom_no_sections rest idx (fun l hl => hR l (List.mem_cons_of_mem p hl))

theorem stripChars_taskHeader : stripChars TASK_SECTION_HEADER = TASK_SECTION_HEADER := by
  decide

theorem stripChars_abHeader :
    stripChars ABANDONED_SECTION_HEADER = ABANDONED_SECTION_HEADER := by decide

theorem parseFrom_taskHeader_step (inT inA : Bool) (j : Nat) (S : List Line) :
    parseFrom inT inA j (TASK_SECTION_HEADER :: S) = parseFrom true false j S := by
  simp only [parseFrom]
  rw [if_pos stripChars_taskHeader]

theorem parseFrom_abHeader_step (inT inA : Bool) (j : Nat) (S : List Line) :
    parseFrom inT inA j (ABANDONED_SECTION_HEADER :: S) = parseFrom false true j S := by
  simp only [parseFrom]
  rw [if_neg (by rw [stripChars_abHeader]; decide), if_pos stripChars_abHeader]

theorem parseFrom_empty_line_step (inT inA : Bool) (j : Nat) (S : List Line) :
    parseFrom inT inA j (([] : Line) :: S) = parseFrom inT inA j S := by
  simp only [parseFrom]
  rw [if_neg (by decide), if_neg (by decide), if_neg (by decide),
    show parseTaskLineChars [] = none from by decide]
  split <;> rfl

theorem parseFrom_serializeLines (ts : List Task) (R : List Line) (k : Nat)
    (hstat : ∀ t ∈ ts, (t.status = ' ' ∨ t.status = 'x' ∨ t.status = '~')
      ∧ stripChars t.title = t.title)
    (hR : ∀ l ∈ R, stripChars l ≠ TASK_SECTION_HEADER
      ∧ stripChars l ≠ ABANDONED_SECTION_HEADER)
    (hhead : R = [] ∨ ∃ p rest, R = p :: rest ∧ isH2 (stripChars p) = true) :
    parseFrom false false k (serializeLines ts ++ R)
      = canonTasks k (ts.filter (fun t => !t.is_abandoned)
          ++ ts.filter (fun t => t.is_abandoned)) := by
  have hmains : ∀ t ∈ ts.filter (fun t => !t.is_abandoned),
      (t.status = ' ' ∨ t.status = 'x' ∨ t.status = '~')
        ∧ stripChars t.title = t.title ∧ (false = true → t.status = '~') := by
    intro t htm
    obtain ⟨h1, h2⟩ := hstat t (List.mem_of_mem_filter htm)
    exact ⟨h1, h2, by simp⟩
  have habs : ∀ t ∈ ts.filter (fun t => t.is_abandoned),
      (t.status = ' ' ∨ t.status = 'x' ∨ t.status = '~')
        ∧ stripChars t.title = t.title ∧ (true = true → t.status = '~') := by
    intro t htm
    obtain ⟨h1, h2⟩ := hstat t (List.mem_of_mem_filter htm)
    refine ⟨h1, h2, fun _ => ?_⟩
    have h3 := List.of_mem_filter htm
    simpa [Task.is_abandoned] using h3
  unfold serializeLines
  by_cases habe : ts.filter (fun t => t.is_abandoned) = []
  · rw [if_pos habe]
    simp only [List.append_assoc, List.cons_append, List.nil_append]
    rw [parseFrom_taskHeader_step, parseFrom_empty_line_step,
      parseFrom_canonical true false (by simp) _ k R hmains,
      parseFrom_tail_closed R true false _ hR hhead, habe]
    simp
  · rw [if_neg habe]
    simp only [List.append_assoc, List.cons_append, List.nil_append]
    rw [parseFrom_taskHeader_step, parseFrom_empty_line_step,
      parseFrom_canonical true false (by simp) _ k _ hmains,
      parseFrom_empty_line_step, parseFrom_abHeader_step, parseFrom_empty_line_step,
      parseFrom_canonical false true (by simp) _ _ R habs,
      parseFrom_tail_closed R false true _ hR hhead,
      canonTasks_append]
    simp

/-- A single trailing blank line never affects the parse. -/
theorem parseFrom_append_empty_line (M : List Line) :
    ∀ (inT inA : Bool) (k : Nat),
    parseFrom inT inA k (M ++ [[]]) = parseFrom inT inA k M := by
  induction M with
  | nil =>
    intro inT inA k
    rw [List.nil_append]
    simp only [parseFrom]
    rw [if_neg (by decide), if_neg (by decide), if_neg (by decide),
      show parseTaskLineChars [] = none from by decide]
    split <;> rfl
  | cons line M ih =>
    intro inT inA k
    rw [List.cons_append]
    simp only [parseFrom]
    split
    · exact ih true false k
    · split
      · exact ih false true k
      · split
        · exact ih false false k
        · split
          · split
            · rw [ih inT inA (k + 1)]
            · exact ih inT inA k
          · exact ih inT inA k

theorem serializeLines_shape (ts : List Task) :
    ∃ r2, serializeLines ts = TASK_SECTION_HEADER :: ([] : Line) :: r2 := by
  unfold serializeLines
  by_cases habe : ts.filter (fun t => t.is_abandoned) = []
  · rw [if_pos habe]
    refine ⟨(ts.filter (fun t => !t.is_abandoned)).map Task.to_markdown, ?_⟩
    simp
  · rw [if_neg habe]
    refine ⟨(ts.filter (fun t => !t.is_abandoned)).map Task.to_markdown
      ++ ([[], ABANDONED_SECTION_HEADER, []]
        ++ (ts.filter (fun t => t.is_abandoned)).map Task.to_markdown), ?_⟩
    simp

theorem serializeLines_no_newline (ts : List Task)
    (hstat : ∀ t ∈ ts, t.status = ' ' ∨ t.status = 'x' ∨ t.status = '~')
    (htitle : ∀ t ∈ ts, '\n' ∉ t.title) :
    ∀ l ∈ serializeLines ts, '\n' ∉ l := by
  intro l hl
  have hmd : ∀ m ∈ ts, '\n' ∉ m.to_markdown := by
    intro m hm
    refine to_markdown_no_newline ?_ (htitle m hm)
    rcases hstat m hm with h | h | h <;> rw [h] <;> decide
  unfold serializeLines at hl
  by_cases habe : ts.filter (fun t => t.is_abandoned) = []
  · rw [if_pos habe] at hl
    simp only [List.append_assoc, List.mem_append, List.mem_cons, List.not_mem_nil,
      or_false, List.mem_map] at hl
    rcases hl with (rfl | rfl) | ⟨m, hm, rfl⟩
    · decide
    · simp
    · exact hmd m (List.mem_of_mem_filter hm)
  · rw [if_neg habe] at hl
    simp only [List.append_assoc, List.mem_append, List.mem_cons, List.not_mem_nil,
      or_false, List.mem_map] at hl
    rcases hl with (rfl | rfl) | ⟨m, hm, rfl⟩ | (rfl | rfl | rfl) | ⟨m, hm, rfl⟩
    · decide
    · simp
    · exact hmd m (List.mem_of_mem_filter hm)
    · simp
    · decide
    · simp
    · exact hmd m (List.mem_of_mem_filter hm)

theorem parseFrom_splitlines_vs_splitAll (cs : Line) (inT inA : Bool) (k : Nat) :
    parseFrom inT inA k (splitlines cs) = parseFrom inT inA k (splitAll cs) := by
  rw [splitlines_eq]
  split
  case isTrue h =>
    have hne := splitAll_ne_nil cs
    have hl : (splitAll cs).getLast hne = [] := by
      have h2 := List.getLast?_eq_getLast (splitAll cs) hne
      rw [h] at h2
      exact (Option.some_inj.mp h2).symm
    conv_rhs => rw [← List.dropLast_append_getLast hne, hl]
    rw [parseFrom_append_empty_line]
  case isFalse => rfl

/-- C1.  Round-trip: for every document whose sections are well-formed —
formalized as: in the parse of the document, no abandoned task precedes a
non-abandoned one (the Task section comes before the Abandoned section) —
parsing the serialization of the parse agrees with the parse on index,
title and status at every position. -/
theorem claim_C1_roundtrip (D : Line)
    (hwf : parse_tasks_from_markdown D
      = (parse_tasks_from_markdown D).filter (fun t => !t.is_abandoned)
        ++ (parse_tasks_from_markdown D).filter (fun t => t.is_abandoned)) :
    keys (parse_tasks_from_markdown
        (serialize_tasks_to_section (parse_tasks_from_markdown D)))
      = keys (parse_tasks_from_markdown D) := by
  set ts := parse_tasks_from_markdown D with hts
  have hts' : ts = parseFrom false false 0 (splitlines D) := by
    rw [hts, parse_eq_parseFrom]
  have hmem : ∀ t ∈ ts, t ∈ parseFrom false false 0 (splitlines D) := by
    intro t htm
    rw [← hts']
    exact htm
  have hstat : ∀ t ∈ ts, (t.status = ' ' ∨ t.status = 'x' ∨ t.status = '~')
      ∧ stripChars t.title = t.title := by
    intro t htm
    obtain ⟨h1, h2, _⟩ := parseFrom_invariant (splitlines D) false false 0 t (hmem t htm)
    exact ⟨h1, h2⟩
  have htitle_nl : ∀ t ∈ ts, '\n' ∉ t.title := by
    intro t htm
    obtain ⟨_, _, l, hl, hsub⟩ :=
      parseFrom_invariant (splitlines D) false false 0 t (hmem t htm)
    intro hc
    exact no_newline_of_mem_splitlines D l hl (hsub '\n' hc)
  have hsa : splitAll (serialize_tasks_to_section ts) = serializeLines ts := by
    obtain ⟨r2, hr2⟩ := serializeLines_shape ts
    rw [serialize_eq_joinLines,
      splitAll_joinLines_of_no_newline _ (by rw [hr2]; simp)
        (serializeLines_no_newline ts (fun t ht0 => (hstat t ht0).1) htitle_nl)]
  have hdense : ts.map Task.index = List.range' 1 ts.length := by
    rw [hts', parseFrom_indices]
  rw [parse_eq_parseFrom, parseFrom_splitlines_vs_splitAll, hsa,
    show serializeLines ts = serializeLines ts ++ [] from by simp,
    parseFrom_serializeLines ts [] 0 hstat (by simp) (Or.inl rfl),
    keys_canonTasks _ 0 (by rw [← hwf]; simpa using hdense), ← hwf]

/-- Witness for C1 at a well-formed document with a pending, a done and an
abandoned task. -/
theorem claim_C1_witness :
    (parse_tasks_from_markdown
        ("## 任务\n\n- [ ] a\n- [x] b\n\n## 已废弃\n\n- [~] c".data)
      = (parse_tasks_from_markdown
          ("## 任务\n\n- [ ] a\n- [x] b\n\n## 已废弃\n\n- [~] c".data)).filter
            (fun t => !t.is_abandoned)
        ++ (parse_tasks_from_markdown
          ("## 任务\n\n- [ ] a\n- [x] b\n\n## 已废弃\n\n- [~] c".data)).filter
            (fun t => t.is_abandoned))
      ∧ keys (parse_tasks_from_markdown
          (serialize_tasks_to_section (parse_tasks_from_markdown
            ("## 任务\n\n- [ ] a\n- [x] b\n\n## 已废弃\n\n- [~] c".data))))
        = keys (parse_tasks_from_markdown
            ("## 任务\n\n- [ ] a\n- [x] b\n\n## 已废弃\n\n- [~] c".data)) := by
  refine ⟨by decide, ?_⟩
  exact claim_C1_roundtrip
    ("## 任务\n\n- [ ] a\n- [x] b\n\n## 已废弃\n\n- [~] c".data) (by decide)

/-! ### The date-title skeleton -/

theorem stripChars_hash_line (iso : Line) :
    stripChars ('#' :: ' ' :: iso) ≠ TASK_SECTION_HEADER
      ∧ stripChars ('#' :: ' ' :: iso) ≠ ABANDONED_SECTION_HEADER
      ∧ isH2 (stripChars ('#' :: ' ' :: iso)) = false := by
  have hdw : ('#' :: ' ' :: iso).dropWhile Char.isWhitespace = '#' :: ' ' :: iso := by
    rw [List.dropWhile_cons, if_neg (by decide)]
  have hr : stripChars ('#' :: ' ' :: iso)
      = List.rdropWhile Char.isWhitespace ('#' :: ' ' :: iso) := by
    rw [stripChars_eq_rdrop, hdw]
  have hpre : stripChars ('#' :: ' ' :: iso) <+: '#' :: ' ' :: iso := by
    rw [hr]
    exact List.rdropWhile_prefix _ _
  have hne : stripChars ('#' :: ' ' :: iso) ≠ [] := by
    rw [hr, Ne, List.rdropWhile_eq_nil_iff]
    push_neg
    exact ⟨'#', List.mem_cons_self _ _, by decide⟩
  obtain ⟨t, ht⟩ := hpre
  rcases hs : stripChars ('#' :: ' ' :: iso) with _ | ⟨c1, s1⟩
  · exact absurd hs hne
  · rw [hs, List.cons_append] at ht
    have hc1 : c1 = '#' := (List.cons.injEq _ _ _ _).mp ht |>.1
    have hrest : s1 ++ t = ' ' :: iso := (List.cons.injEq _ _ _ _).mp ht |>.2
    subst hc1
    rcases s1 with _ | ⟨c2, s2⟩
    · exact ⟨by decide, by decide, by decide⟩
    · rw [List.cons_append] at hrest
      have hc2 : c2 = ' ' := (List.cons.injEq _ _ _ _).mp hrest |>.1
      subst hc2
      refine ⟨?_, ?_, ?_⟩
      · intro hc
        have h9 : (('#' : Char) :: ' ' :: s2)[1]? = TASK_SECTION_HEADER[1]? := by rw [hc]
        rw [show TASK_SECTION_HEADER[1]? = some '#' from by decide] at h9
        have h10 : some ' ' = some '#' := by simpa using h9
        exact absurd (Option.some_inj.mp h10) (by decide)
      · intro hc
        have h9 : (('#' : Char) :: ' ' :: s2)[1]? = ABANDONED_SECTION_HEADER[1]? := by
          rw [hc]
        rw [show ABANDONED_SECTION_HEADER[1]? = some '#' from by decide] at h9
        have h10 : some ' ' = some '#' := by simpa using h9
        exact absurd (Option.some_inj.mp h10) (by decide)
      · simp [isH2, List.isPrefixOf, show (('#' : Char) == ' ') = false from by decide]

theorem skeleton_splitlines (iso : Line) (hiso : '\n' ∉ iso) :
    splitlines (('#' :: ' ' :: iso) ++ '\n' :: '\n'
        :: (TASK_SECTION_HEADER ++ '\n' :: '\n' :: []))
      = [('#' :: ' ' :: iso), [], TASK_SECTION_HEADER, []] := by
  have hA : '\n' ∉ ('#' :: ' ' :: iso) := by
    intro h
    rcases List.mem_cons.mp h with h | h
    · exact absurd h (by decide)
    · rcases List.mem_cons.mp h with h | h
      · exact absurd h (by decide)
      · exact hiso h
  have hsa : splitAll (('#' :: ' ' :: iso) ++ '\n' :: '\n'
        :: (TASK_SECTION_HEADER ++ '\n' :: '\n' :: []))
      = [('#' :: ' ' :: iso), [], TASK_SECTION_HEADER, [], []] := by
    rw [splitAll_append_newline, splitAll_no_newline hA]
    rw [show ('\n' :: (TASK_SECTION_HEADER ++ '\n' :: '\n' :: []))
        = ([] : Line) ++ '\n' :: (TASK_SECTION_HEADER ++ '\n' :: '\n' :: []) from rfl,
      splitAll_append_newline]
    rw [show (TASK_SECTION_HEADER ++ '\n' :: '\n' :: [])
        = TASK_SECTION_HEADER ++ '\n' :: ('\n' :: []) from rfl,
      splitAll_append_newline,
      splitAll_no_newline (show '\n' ∉ TASK_SECTION_HEADER from by decide)]
    rfl
  rw [splitlines_eq, hsa]
  simp [List.getLast?]

theorem skeleton_parse (iso : Line) (hiso : '\n' ∉ iso) :
    parse_tasks_from_markdown (('#' :: ' ' :: iso) ++ '\n' :: '\n'
        :: (TASK_SECTION_HEADER ++ '\n' :: '\n' :: [])) = [] := by
  rw [parse_eq_parseFrom, skeleton_splitlines iso hiso]
  have hh := stripChars_hash_line iso
  rw [show ([('#' :: ' ' :: iso), ([] : Line), TASK_SECTION_HEADER, ([] : Line)])
      = [('#' :: ' ' :: iso), ([] : Line)] ++ [TASK_SECTION_HEADER, ([] : Line)] from rfl,
    parseFrom_append_no_sections _ _ 0 ?_]
  · decide
  · intro l hl
    rcases List.mem_cons.mp hl with rfl | hl
    · exact ⟨hh.1, hh.2.1⟩
    · rcases List.mem_cons.mp hl with rfl | hl
      · exact ⟨by decide, by decide⟩
      · exact absurd hl (by simp)

/-- C9.  Cold start: whenever yesterday's document parses to zero
pending tasks (including the missing-file case, where reading yields the
empty string), the Generate operation does not invoke the external
text-generation collaborator, and when today's file is absent or blank it
writes a document consisting only of the date title and an empty
Task-section header, which parses to no tasks. -/
theorem claim_C9_cold_start (yesterday_md existing today_iso : Line)
    (gen : List Line → Line → Line)
    (hpending : (parse_tasks_from_markdown yesterday_md).filter Task.is_pending = [])
    (hiso : '\n' ∉ today_iso) :
    (cmd_generate_core yesterday_md existing today_iso gen).2 = false
      ∧ (stripChars existing = [] →
          (cmd_generate_core yesterday_md existing today_iso gen).1
            = ('#' :: ' ' :: today_iso) ++ '\n' :: '\n'
                :: (TASK_SECTION_HEADER ++ '\n' :: '\n' :: [])
          ∧ parse_tasks_from_markdown
              ((cmd_generate_core yesterday_md existing today_iso gen).1) = []) := by
  have hcond : ((parse_tasks_from_markdown yesterday_md).filter Task.is_pending).map
      Task.title = [] := by
    simp [hpending]
  constructor
  · simp [cmd_generate_core, hcond]
  · intro hblank
    have h1 : (cmd_generate_core yesterday_md existing today_iso gen).1
        = ('#' :: ' ' :: today_iso) ++ '\n' :: '\n'
            :: (TASK_SECTION_HEADER ++ '\n' :: '\n' :: []) := by
      simp [cmd_generate_core, hcond, hblank]
    exact ⟨h1, by rw [h1]; exact skeleton_parse today_iso hiso⟩

/-- Witness for C9: no yesterday file (empty string) and no today file. -/
theorem claim_C9_witness :
    (parse_tasks_from_markdown ("".data)).filter Task.is_pending = []
      ∧ '\n' ∉ ("2024-01-02".data)
      ∧ ((cmd_generate_core ("".data) ("".data) ("2024-01-02".data)
            (fun _ _ => "IGNORED".data)).2 = false
        ∧ (stripChars ("".data) = [] →
            (cmd_generate_core ("".data) ("".data) ("2024-01-02".data)
              (fun _ _ => "IGNORED".data)).1
              = ('#' :: ' ' :: ("2024-01-02".data)) ++ '\n' :: '\n'
                  :: (TASK_SECTION_HEADER ++ '\n' :: '\n' :: [])
            ∧ parse_tasks_from_markdown
                ((cmd_generate_core ("".data) ("".data) ("2024-01-02".data)
                  (fun _ _ => "IGNORED".data)).1) = [])) := by
  refine ⟨by decide, by decide, ?_⟩
  exact claim_C9_cold_start ("".data) ("".data) ("2024-01-02".data)
    (fun _ _ => "IGNORED".data) (by decide) (by decide)

/-! ### Reparsing after a merge (machinery for C7) -/

theorem mem_of_mem_splitAll_chars (cs : Line) :
    ∀ l ∈ splitAll cs, ∀ c ∈ l, c ∈ cs := by
  induction cs with
  | nil =>
    intro l hl
    simp [splitAll] at hl
    simp [hl]
  | cons a rest ih =>
    intro l hl c hc
    rw [splitAll] at hl
    by_cases ha : a = '\n'
    · rw [if_pos ha] at hl
      rcases List.mem_cons.mp hl with rfl | hl
      · exact absurd hc (by simp)
      · exact List.mem_cons_of_mem a (ih l hl c hc)
    · rw [if_neg ha] at hl
      rcases h : splitAll rest with _ | ⟨m, ms⟩
      · exact absurd h (splitAll_ne_nil rest)
      · rw [h, List.mem_cons] at hl
        rcases hl with rfl | hl
        · rcases List.mem_cons.mp hc with rfl | hc
          · exact List.mem_cons_self _ _
          · exact List.mem_cons_of_mem a (ih m (h ▸ List.mem_cons_self m ms) c hc)
        · exact List.mem_cons_of_mem a (ih l (h ▸ List.mem_cons_of_mem m hl) c hc)

/-- A document that strips to nothing parses to no tasks. -/
theorem parse_blank (content : Line) (h : stripChars content = []) :
    parse_tasks_from_markdown content = [] := by
  have hws : ∀ c ∈ content, Char.isWhitespace c = true := by
    have h1 : ∀ x ∈ content.dropWhile Char.isWhitespace, Char.isWhitespace x = true := by
      rw [stripChars_eq_rdrop] at h
      exact List.rdropWhile_eq_nil_iff.mp h
    intro c hc
    have hc2 : c ∈ content.takeWhile Char.isWhitespace
        ++ content.dropWhile Char.isWhitespace := by
      rw [List.takeWhile_append_dropWhile]
      exact hc
    rcases List.mem_append.mp hc2 with h2 | h2
    · exact List.mem_takeWhile_imp h2
    · exact h1 c h2
  rw [parse_eq_parseFrom]
  apply parseFrom_no_sections
  intro l hl
  have hlchars : ∀ c ∈ l, Char.isWhitespace c = true := by
    intro c hc
    have hmem : l ∈ splitAll content := by
      unfold splitlines at hl
      by_cases hd : (splitAll content).getLast? = some []
      · rw [if_pos hd] at hl
        exact List.dropLast_subset _ hl
      · rw [if_neg hd] at hl
        exact hl
    exact hws c (mem_of_mem_splitAll_chars content l hmem c hc)
  have hstripl : stripChars l = [] := by
    rw [stripChars_eq_rdrop, List.dropWhile_eq_nil_iff.mpr hlchars]
    rfl
  constructor
  · rw [hstripl]
    intro hc
    exact absurd hc.symm (by decide)
  · rw [hstripl]
    intro hc
    exact absurd hc.symm (by decide)

theorem parse_invariants (content : Line) :
    ∀ t ∈ parse_tasks_from_markdown content,
      (t.status = ' ' ∨ t.status = 'x' ∨ t.status = '~')
        ∧ stripChars t.title = t.title ∧ '\n' ∉ t.title := by
  intro t htm
  rw [parse_eq_parseFrom] at htm
  obtain ⟨h1, h2, l, hl, hsub⟩ :=
    parseFrom_invariant (splitlines content) false false 0 t htm
  refine ⟨h1, h2, fun hc => ?_⟩
  exact no_newline_of_mem_splitlines content l hl (hsub '\n' hc)

theorem splitAll_serialize (ts : List Task)
    (hstat : ∀ t ∈ ts, t.status = ' ' ∨ t.status = 'x' ∨ t.status = '~')
    (htitle : ∀ t ∈ ts, '\n' ∉ t.title) :
    splitAll (serialize_tasks_to_section ts) = serializeLines ts := by
  obtain ⟨r2, hr2⟩ := serializeLines_shape ts
  rw [serialize_eq_joinLines,
    splitAll_joinLines_of_no_newline _ (by rw [hr2]; simp)
      (serializeLines_no_newline ts hstat htitle)]

theorem flatMap_splitAll_id (X : List Line) (h : ∀ l ∈ X, '\n' ∉ l) :
    X.flatMap splitAll = X := by
  induction X with
  | nil => rfl
  | cons l X ih =>
    rw [List.flatMap_cons, splitAll_no_newline (h l (List.mem_cons_self _ _)),
      ih (fun m hm => h m (List.mem_cons_of_mem l hm))]
    rfl

theorem dropWhile_head_false (p : Line → Bool) (l : List Line) :
    l.dropWhile p = [] ∨ ∃ a t2, l.dropWhile p = a :: t2 ∧ p a = false := by
  induction l with
  | nil => exact Or.inl rfl
  | cons a l ih =>
    rw [List.dropWhile_cons]
    by_cases hp : p a
    · rw [if_pos hp]
      exact ih
    · rw [if_neg hp]
      exact Or.inr ⟨a, l, rfl, by simpa using hp⟩

theorem rtsGo_mem_noheader (sec : Line) :
    ∀ (n : Nat) (lines : List Line), lines.length ≤ n →
    lines.countP isTaskHeaderLine = 0 →
    ∀ l ∈ (rtsGo sec lines).1,
      l ∈ lines ∧ stripChars l ≠ TASK_SECTION_HEADER
        ∧ stripChars l ≠ ABANDONED_SECTION_HEADER := by
  intro n
  induction n with
  | zero =>
    intro lines hlen _
    rw [List.length_eq_zero.mp (Nat.le_zero.mp hlen)]
    simp [rtsGo]
  | succ n ih =>
    intro lines hlen hcnt
    rcases lines with _ | ⟨line, rest⟩
    · simp [rtsGo]
    · rw [List.length_cons, Nat.succ_le_succ_iff] at hlen
      have hdlen : (rest.dropWhile (fun l => !isH2 (stripChars l))).length ≤ n :=
        le_trans (List.dropWhile_suffix _).length_le hlen
      have hcrest : rest.countP isTaskHeaderLine = 0 := by
        rw [List.countP_cons] at hcnt
        omega
      have hdcnt : (rest.dropWhile (fun l => !isH2 (stripChars l))).countP
          isTaskHeaderLine = 0 := by
        rw [countP_taskHeader_dropWhile]
        exact hcrest
      have hsub : ∀ l ∈ rest.dropWhile (fun l => !isH2 (stripChars l)),
          l ∈ line :: rest :=
        fun l hl => List.mem_cons_of_mem _ ((List.dropWhile_suffix _).subset hl)
      intro l hl
      rw [rtsGo] at hl
      by_cases hT : stripChars line = TASK_SECTION_HEADER
      · exfalso
        rw [List.countP_cons, if_pos (isTaskHeaderLine_iff.mpr hT)] at hcnt
        omega
      · rw [if_neg hT] at hl
        by_cases hA : stripChars line = ABANDONED_SECTION_HEADER
        · rw [if_pos hA] at hl
          obtain ⟨hm, hp⟩ := ih _ hdlen hdcnt l hl
          exact ⟨hsub l hm, hp⟩
        · rw [if_neg hA] at hl
          rcases List.mem_cons.mp hl with rfl | hl
          · exact ⟨List.mem_cons_self _ _, hT, hA⟩
          · obtain ⟨hm, hp⟩ := ih rest hlen hcrest l hl
            exact ⟨List.mem_cons_of_mem _ hm, hp⟩

theorem rtsGo_head_H2 (sec : Line) :
    ∀ (n : Nat) (lines : List Line), lines.length ≤ n →
    (lines = [] ∨ ∃ p r0, lines = p :: r0 ∧ isH2 (stripChars p) = true) →
    lines.countP isTaskHeaderLine = 0 →
    ((rtsGo sec lines).1 = []
      ∨ ∃ q r1, (rtsGo sec lines).1 = q :: r1 ∧ isH2 (stripChars q) = true) := by
  intro n
  induction n with
  | zero =>
    intro lines hlen _ _
    rw [List.length_eq_zero.mp (Nat.le_zero.mp hlen)]
    simp [rtsGo]
  | succ n ih =>
    intro lines hlen hhead hcnt
    rcases hhead with rfl | ⟨p, r0, rfl, hH2⟩
    · simp [rtsGo]
    · rw [List.length_cons, Nat.succ_le_succ_iff] at hlen
      have hpT : stripChars p ≠ TASK_SECTION_HEADER := by
        intro hc
        rw [List.countP_cons, if_pos (isTaskHeaderLine_iff.mpr hc)] at hcnt
        omega
      have hcrest : r0.countP isTaskHeaderLine = 0 := by
        rw [List.countP_cons] at hcnt
        omega
      rw [rtsGo, if_neg hpT]
      by_cases hpA : stripChars p = ABANDONED_SECTION_HEADER
      · rw [if_pos hpA]
        refine ih _ (le_trans (List.dropWhile_suffix _).length_le hlen) ?_ ?_
        · rcases dropWhile_head_false (fun l => !isH2 (stripChars l)) r0 with h | ⟨a, t2, ha, hpa⟩
          · exact Or.inl h
          · refine Or.inr ⟨a, t2, ha, ?_⟩
            simpa using hpa
        · rw [countP_taskHeader_dropWhile]
          exact hcrest
      · rw [if_neg hpA]
        exact Or.inr ⟨p, (rtsGo sec r0).1, rfl, hH2⟩

theorem rtsGo_structure_one (sec : Line) :
    ∀ (n : Nat) (lines : List Line), lines.length ≤ n →
    lines.countP isTaskHeaderLine = 1 →
    ∃ A C, rtsGo sec lines = (A ++ sec :: C, true)
      ∧ (∀ l ∈ A, l ∈ lines ∧ stripChars l ≠ TASK_SECTION_HEADER
          ∧ stripChars l ≠ ABANDONED_SECTION_HEADER)
      ∧ (∀ l ∈ C, l ∈ lines ∧ stripChars l ≠ TASK_SECTION_HEADER
          ∧ stripChars l ≠ ABANDONED_SECTION_HEADER)
      ∧ (C = [] ∨ ∃ q r1, C = q :: r1 ∧ isH2 (stripChars q) = true) := by
  intro n
  induction n with
  | zero =>
    intro lines hlen hcnt
    rw [List.length_eq_zero.mp (Nat.le_zero.mp hlen)] at hcnt ⊢
    simp at hcnt
  | succ n ih =>
    intro lines hlen hcnt
    rcases lines with _ | ⟨line, rest⟩
    · simp at hcnt
    · rw [List.length_cons, Nat.succ_le_succ_iff] at hlen
      have hdlen : (rest.dropWhile (fun l => !isH2 (stripChars l))).length ≤ n :=
        le_trans (List.dropWhile_suffix _).length_le hlen
      have hsub : ∀ l ∈ rest.dropWhile (fun l => !isH2 (stripChars l)),
          l ∈ line :: rest :=
        fun l hl => List.mem_cons_of_mem _ ((List.dropWhile_suffix _).subset hl)
      by_cases hT : stripChars line = TASK_SECTION_HEADER
      · have hcrest : rest.countP isTaskHeaderLine = 0 := by
          rw [List.countP_cons, if_pos (isTaskHeaderLine_iff.mpr hT)] at hcnt
          omega
        have hdcnt : (rest.dropWhile (fun l => !isH2 (stripChars l))).countP
            isTaskHeaderLine = 0 := by
          rw [countP_taskHeader_dropWhile]
          exact hcrest
        refine ⟨[], (rtsGo sec (rest.dropWhile (fun l => !isH2 (stripChars l)))).1,
          ?_, by simp, ?_, ?_⟩
        · rw [rtsGo, if_pos hT]
          rfl
        · intro l hl
          obtain ⟨hm, hp⟩ := rtsGo_mem_noheader sec n _ hdlen hdcnt l hl
          exact ⟨hsub l hm, hp⟩
        · refine rtsGo_head_H2 sec n _ hdlen ?_ hdcnt
          rcases dropWhile_head_false (fun l => !isH2 (stripChars l)) rest with h | ⟨a, t2, ha, hpa⟩
          · exact Or.inl h
          · refine Or.inr ⟨a, t2, ha, ?_⟩
            simpa using hpa
      · have hline0 : isTaskHeaderLine line = false := by
          rw [Bool.eq_false_iff]
          intro hc
          exact hT (isTaskHeaderLine_iff.mp hc)
        have hcrest : rest.countP isTaskHeaderLine = 1 := by
          rw [List.countP_cons, hline0] at hcnt
          simpa using hcnt
        by_cases hA : stripChars line = ABANDONED_SECTION_HEADER
        · have hdcnt : (rest.dropWhile (fun l => !isH2 (stripChars l))).countP
              isTaskHeaderLine = 1 := by
            rw [countP_taskHeader_dropWhile]
            exact hcrest
          obtain ⟨A, C, hgo, hAp, hCp, hCh⟩ := ih _ hdlen hdcnt
          refine ⟨A, C, ?_, ?_, ?_, hCh⟩
          · rw [rtsGo, if_neg hT, if_pos hA, hgo]
          · intro l hl
            obtain ⟨hm, hp⟩ := hAp l hl
            exact ⟨hsub l hm, hp⟩
          · intro l hl
            obtain ⟨hm, hp⟩ := hCp l hl
            exact ⟨hsub l hm, hp⟩
        · obtain ⟨A, C, hgo, hAp, hCp, hCh⟩ := ih rest hlen hcrest
          refine ⟨line :: A, C, ?_, ?_, ?_, hCh⟩
          · rw [rtsGo, if_neg hT, if_neg hA, hgo]
            rfl
          · intro l hl
            rcases List.mem_cons.mp hl with rfl | hl
            · exact ⟨List.mem_cons_self _ _, hT, hA⟩
            · obtain ⟨hm, hp⟩ := hAp l hl
              exact ⟨List.mem_cons_of_mem _ hm, hp⟩
          · intro l hl
            obtain ⟨hm, hp⟩ := hCp l hl
            exact ⟨List.mem_cons_of_mem _ hm, hp⟩

/-- Re-parsing a document after merging the serialization of its own parse
gives back the same tasks (by index, title, status), provided the parse
lists non-abandoned before abandoned tasks and the document has at most
one Task-section header line. -/
theorem reparse_replace (content : Line)
    (hord : parse_tasks_from_markdown content
      = (parse_tasks_from_markdown content).filter (fun t => !t.is_abandoned)
        ++ (parse_tasks_from_markdown content).filter (fun t => t.is_abandoned))
    (hone : (splitlines content).countP isTaskHeaderLine ≤ 1) :
    keys (parse_tasks_from_markdown
        (replace_tasks_section content
          (serialize_tasks_to_section (parse_tasks_from_markdown content))))
      = keys (parse_tasks_from_markdown content) := by
  set ts := parse_tasks_from_markdown content with hts
  set sec := serialize_tasks_to_section ts with hsec
  have hstat : ∀ t ∈ ts, (t.status = ' ' ∨ t.status = 'x' ∨ t.status = '~')
      ∧ stripChars t.title = t.title := by
    intro t htm
    obtain ⟨h1, h2, _⟩ := parse_invariants content t htm
    exact ⟨h1, h2⟩
  have htitle_nl : ∀ t ∈ ts, '\n' ∉ t.title :=
    fun t htm => (parse_invariants content t htm).2.2
  have hsaNL : splitAll sec = serializeLines ts :=
    splitAll_serialize ts (fun t ht0 => (hstat t ht0).1) htitle_nl
  have hdense : ts.map Task.index = List.range' 1 ts.length := by
    rw [hts, parse_eq_parseFrom]
    exact parseFrom_indices _ false false 0
  have hkeys : keys (canonTasks 0 (ts.filter (fun t => !t.is_abandoned)
      ++ ts.filter (fun t => t.is_abandoned))) = keys ts := by
    have hd2 : (ts.filter (fun t => !t.is_abandoned)
        ++ ts.filter (fun t => t.is_abandoned)).map Task.index
        = List.range' (0 + 1) (ts.filter (fun t => !t.is_abandoned)
          ++ ts.filter (fun t => t.is_abandoned)).length := by
      rw [← hord]
      simpa using hdense
    rw [keys_canonTasks _ 0 hd2, ← hord]
  have husable : ∀ M : List Line,
      (∀ l ∈ M, (stripChars l ≠ TASK_SECTION_HEADER
          ∧ stripChars l ≠ ABANDONED_SECTION_HEADER) ∧ '\n' ∉ l) →
      ∀ R : List Line,
      (∀ l ∈ R, (stripChars l ≠ TASK_SECTION_HEADER
          ∧ stripChars l ≠ ABANDONED_SECTION_HEADER) ∧ '\n' ∉ l) →
      (R = [] ∨ ∃ q r1, R = q :: r1 ∧ isH2 (stripChars q) = true) →
      keys (parse_tasks_from_markdown (joinLines (M ++ sec :: R))) = keys ts := by
    intro M hM R hR hRh
    rw [parse_eq_parseFrom, parseFrom_splitlines_vs_splitAll,
      splitAll_joinLines _ (by simp),
      show M ++ sec :: R = M ++ ([sec] ++ R) from by simp,
      List.flatMap_append, List.flatMap_append,
      flatMap_splitAll_id M (fun l hl => (hM l hl).2),
      flatMap_splitAll_id R (fun l hl => (hR l hl).2),
      show List.flatMap [sec] splitAll = serializeLines ts from by simp [hsaNL],
      parseFrom_append_no_sections M _ 0 (fun l hl => (hM l hl).1),
      parseFrom_serializeLines ts R 0 hstat (fun l hl => (hR l hl).1) hRh]
    exact hkeys
  rcases Nat.lt_or_ge ((splitlines content).countP isTaskHeaderLine) 1 with h0 | h1
  · have h00 : (splitlines content).countP isTaskHeaderLine = 0 := by omega
    have hflag : (rtsGo sec (splitlines content)).2 = false := by
      rcases hb : (rtsGo sec (splitlines content)).2 with _ | _
      · rfl
      · exact absurd ((rtsGo_replaced sec (splitlines content).length _ le_rfl).mp hb)
          (by simp [h00])
    have hmem0 := rtsGo_mem_noheader sec (splitlines content).length _ le_rfl h00
    have hres : replace_tasks_section content sec
        = joinLines ((if stripChars (((rtsGo sec (splitlines content)).1).getLastD []) ≠ []
            then (rtsGo sec (splitlines content)).1 ++ [[]]
            else (rtsGo sec (splitlines content)).1) ++ [sec]) := by
      simp only [replace_tasks_section, hflag, Bool.false_eq_true, if_false]
    have hprops : ∀ l ∈ (rtsGo sec (splitlines content)).1,
        (stripChars l ≠ TASK_SECTION_HEADER ∧ stripChars l ≠ ABANDONED_SECTION_HEADER)
          ∧ '\n' ∉ l := by
      intro l hl
      obtain ⟨hm, hp⟩ := hmem0 l hl
      exact ⟨hp, no_newline_of_mem_splitlines content l hm⟩
    rw [hres]
    split
    · rw [show ((rtsGo sec (splitlines content)).1 ++ [[]]) ++ [sec]
          = ((rtsGo sec (splitlines content)).1 ++ [[]]) ++ sec :: [] from rfl]
      refine husable _ ?_ [] (by simp) (Or.inl rfl)
      intro l hl
      rcases List.mem_append.mp hl with hl | hl
      · exact hprops l hl
      · rw [List.mem_singleton] at hl
        subst hl
        exact ⟨⟨by decide, by decide⟩, by simp⟩
    · rw [show (rtsGo sec (splitlines content)).1 ++ [sec]
          = (rtsGo sec (splitlines content)).1 ++ sec :: [] from rfl]
      exact husable _ hprops [] (by simp) (Or.inl rfl)
  · have h11 : (splitlines content).countP isTaskHeaderLine = 1 := by omega
    obtain ⟨A, C, hgo, hAp, hCp, hCh⟩ :=
      rtsGo_structure_one sec (splitlines content).length _ le_rfl h11
    have hres : replace_tasks_section content sec = joinLines (A ++ sec :: C) := by
      simp [replace_tasks_section, hgo]
    rw [hres]
    refine husable A ?_ C ?_ hCh
    · intro l hl
      obtain ⟨hm, hp⟩ := hAp l hl
      exact ⟨hp, no_newline_of_mem_splitlines content l hm⟩
    · intro l hl
      obtain ⟨hm, hp⟩ := hCp l hl
      exact ⟨hp, no_newline_of_mem_splitlines content l hm⟩

/-- With the fail-soft (all-empty) edit set, `cmd_update_core` reduces to
re-serializing the parsed tasks and merging them back. -/
theorem cmd_update_core_failsoft (d_iso content : Line) :
    cmd_update_core d_iso content parse_update_intent_failsoft
      = replace_tasks_section
          (if stripChars content = [] then
            ('#' :: ' ' :: d_iso) ++ '\n' :: '\n'
              :: (TASK_SECTION_HEADER ++ '\n' :: '\n' :: [])
          else content)
          (serialize_tasks_to_section (parse_tasks_from_markdown content)) := by
  unfold cmd_update_core parse_update_intent_failsoft
  simp [textEditFor]

/-- C7, counterexample.  With the fail-soft (all-empty) edit set the
written task list is *not* always unchanged: on a document whose Abandoned
section precedes its Task section, the merge re-orders the tasks (main
before abandoned) and re-parsing renumbers them. -/
theorem claim_C7_counterexample :
    keys (parse_tasks_from_markdown
        (cmd_update_core ("2024-01-05".data)
          ("## 已废弃\n- [x] a\n## 任务\n- [ ] b".data) parse_update_intent_failsoft))
      = [(1, "b".data, ' '), (2, "a".data, '~')]
    ∧ keys (parse_tasks_from_markdown ("## 已废弃\n- [x] a\n## 任务\n- [ ] b".data))
      = [(1, "a".data, '~'), (2, "b".data, ' ')]
    ∧ keys (parse_tasks_from_markdown
        (cmd_update_core ("2024-01-05".data)
          ("## 已废弃\n- [x] a\n## 任务\n- [ ] b".data) parse_update_intent_failsoft))
      ≠ keys (parse_tasks_from_markdown ("## 已废弃\n- [x] a\n## 任务\n- [ ] b".data)) := by
  have h1 : cmd_update_core ("2024-01-05".data)
        ("## 已废弃\n- [x] a\n## 任务\n- [ ] b".data) parse_update_intent_failsoft
      = replace_tasks_sectionF ("## 已废弃\n- [x] a\n## 任务\n- [ ] b".data)
          (serialize_tasks_to_section (parse_tasks_from_markdown
            ("## 已废弃\n- [x] a\n## 任务\n- [ ] b".data))) := by
    rw [cmd_update_core_failsoft, if_neg (by decide), ← replace_tasks_sectionF_eq]
  refine ⟨?_, by decide, ?_⟩
  · rw [h1]
    decide
  · rw [h1]
    decide

/-- C7, amended.  The fail-soft edit set has all four fields empty, the
Update pipeline is total, and — for every document whose parse lists
non-abandoned before abandoned tasks and which contains at most one
Task-section header line (as every document the program itself writes
does) — the task list parsed from the written document is unchanged by
index, title and status. -/
theorem claim_C7_failsoft_update (d_iso content : Line)
    (hiso : '\n' ∉ d_iso)
    (hord : parse_tasks_from_markdown content
      = (parse_tasks_from_markdown content).filter (fun t => !t.is_abandoned)
        ++ (parse_tasks_from_markdown content).filter (fun t => t.is_abandoned))
    (hone : (splitlines content).countP isTaskHeaderLine ≤ 1) :
    (parse_update_intent_failsoft.completed_indices = []
      ∧ parse_update_intent_failsoft.abandoned_indices = []
      ∧ parse_update_intent_failsoft.new_tasks = []
      ∧ parse_update_intent_failsoft.text_edits = [])
    ∧ keys (parse_tasks_from_markdown
        (cmd_update_core d_iso content parse_update_intent_failsoft))
      = keys (parse_tasks_from_markdown content) := by
  refine ⟨⟨rfl, rfl, rfl, rfl⟩, ?_⟩
  rw [cmd_update_core_failsoft]
  by_cases hblank : stripChars content = []
  · rw [if_pos hblank]
    have hpc := parse_blank content hblank
    have hps : parse_tasks_from_markdown (('#' :: ' ' :: d_iso) ++ '\n' :: '\n'
        :: (TASK_SECTION_HEADER ++ '\n' :: '\n' :: [])) = [] :=
      skeleton_parse d_iso hiso
    have hA0 : isTaskHeaderLine ('#' :: ' ' :: d_iso) = false := by
      rw [Bool.eq_false_iff]
      intro hc
      exact (stripChars_hash_line d_iso).1 (isTaskHeaderLine_iff.mp hc)
    have hcnt : (splitlines (('#' :: ' ' :: d_iso) ++ '\n' :: '\n'
        :: (TASK_SECTION_HEADER ++ '\n' :: '\n' :: []))).countP isTaskHeaderLine ≤ 1 := by
      rw [skeleton_splitlines d_iso hiso,
        show ([('#' :: ' ' :: d_iso), ([] : Line), TASK_SECTION_HEADER, ([] : Line)])
          = ('#' :: ' ' :: d_iso)
              :: [([] : Line), TASK_SECTION_HEADER, ([] : Line)] from rfl,
        List.countP_cons, hA0,
        show List.countP isTaskHeaderLine [([] : Line), TASK_SECTION_HEADER, ([] : Line)]
          = 1 from by decide]
      simp
    have hrr := reparse_replace _ (by rw [hps]; simp) hcnt
    rw [hps] at hrr
    rw [hpc]
    exact hrr
  · rw [if_neg hblank]
    exact reparse_replace content hord hone

/-- Witness for C7 (amended) at a well-formed document. -/
theorem claim_C7_witness :
    '\n' ∉ ("2024-01-05".data)
      ∧ parse_tasks_from_markdown ("## 任务\n\n- [ ] a\n\n## 已废弃\n\n- [~] c".data)
          = (parse_tasks_from_markdown
              ("## 任务\n\n- [ ] a\n\n## 已废弃\n\n- [~] c".data)).filter
                (fun t => !t.is_abandoned)
            ++ (parse_tasks_from_markdown
              ("## 任务\n\n- [ ] a\n\n## 已废弃\n\n- [~] c".data)).filter
                (fun t => t.is_abandoned)
      ∧ (splitlines ("## 任务\n\n- [ ] a\n\n## 已废弃\n\n- [~] c".data)).countP
          isTaskHeaderLine ≤ 1
      ∧ ((parse_update_intent_failsoft.completed_indices = []
            ∧ parse_update_intent_failsoft.abandoned_indices = []
            ∧ parse_update_intent_failsoft.new_tasks = []
            ∧ parse_update_intent_failsoft.text_edits = [])
          ∧ keys (parse_tasks_from_markdown
              (cmd_update_core ("2024-01-05".data)
                ("## 任务\n\n- [ ] a\n\n## 已废弃\n\n- [~] c".data)
                parse_update_intent_failsoft))
            = keys (parse_tasks_from_markdown
                ("## 任务\n\n- [ ] a\n\n## 已废弃\n\n- [~] c".data))) := by
  refine ⟨by decide, by decide, by decide, ?_⟩
  exact claim_C7_failsoft_update ("2024-01-05".data)
    ("## 任务\n\n- [ ] a\n\n## 已废弃\n\n- [~] c".data) (by decide) (by decide) (by decide)

end DailyTodo
